import Mathlib

/-!
# Verification of the `muz` migration library

A shallow embedding of the `muz` Go migration library (package `muz`,
files `file.go`, `muz.go`, and the `PostgresDriver` in `muz_test.go`),
together with proofs about the claims of its specification.

Go strings are embedded as `List Char` (UTF-8 byte order coincides with
code-point order, so lexicographic comparison of `List Char` agrees with
Go's byte-wise `strings.Compare` on valid UTF-8 input).  Go `int` values
are embedded as `Nat`/`Int` with explicit 64-bit bounds where overflow
matters (`strconv.Atoi`).  Filesystems are embedded as finite trees of
directories, and the `fs.WalkDir` traversal of `getMigrationDirs` as a
recursive walk over such trees.
-/

namespace Muz

/-- Go strings, embedded as lists of characters. -/
abbrev Str := List Char

/-- The path separator. -/
def sl : Char := '/'

/-- The glob wildcard character. -/
def st : Char := '*'

/-- `strings.HasPrefix`. -/
def hasPrefixS (s pre : Str) : Bool := pre.isPrefixOf s

/-- `strings.TrimPrefix`: removes the prefix if present, else returns `s`. -/
def trimPrefixS (s pre : Str) : Str :=
  if pre.isPrefixOf s then s.drop pre.length else s

/-- `strings.HasSuffix`. -/
def hasSuffixS (s suf : Str) : Bool := suf.isSuffixOf s

/-- `strings.TrimSuffix`: removes the suffix if present, else returns `s`. -/
def trimSuffixS (s suf : Str) : Str :=
  if suf.isSuffixOf s then s.take (s.length - suf.length) else s

/-- `strings.Compare` (byte-wise lexicographic for Go; code-point
lexicographic here, which agrees on valid UTF-8): `-1`, `0` or `1`. -/
def cmpStr : Str → Str → Int
  | [], [] => 0
  | [], _ :: _ => -1
  | _ :: _, [] => 1
  | a :: as, b :: bs =>
    if a < b then -1 else if b < a then 1 else cmpStr as bs

/-! ## The version extractor (`extractLeadingNumber`, file.go) -/

/-- The decimal-digit test used by `extractLeadingNumber`'s loop condition
`r >= '0' && r <= '9'`. -/
def isDigitC (c : Char) : Bool := '0' ≤ c && c ≤ '9'

/-- The numeric value of a digit string (the fold performed by decimal
string-to-integer conversion). -/
def digitsVal (s : Str) : Nat :=
  s.foldl (fun acc c => acc * 10 + (c.toNat - '0'.toNat)) 0

/-- The largest Go `int` on 64-bit platforms, `2^63 - 1`. -/
def maxGoInt : Nat := 2 ^ 63 - 1

/-- Modelled from the spec: `strconv.Atoi` (Go standard library, not part of
this repository) on a nonempty all-digit string.  Per its documentation it
returns the decimal value, or an `ErrRange` error when the value does not
fit in the platform `int` (64-bit here); `none` embeds the error case. -/
def atoi (s : Str) : Option Nat :=
  if digitsVal s ≤ maxGoInt then some (digitsVal s) else none

/-- `extractLeadingNumber` (file.go): takes the maximal run of leading
decimal digits (the source loop `for _, r := range filename` with `break`
at the first non-digit is this `takeWhile`), returns `0` when there are
none or when `strconv.Atoi` fails, and otherwise the parsed value.  The
second component is the original filename, returned for secondary
sorting. -/
def extractLeadingNumber (filename : Str) : Nat × Str :=
  let numStr := filename.takeWhile isDigitC
  if numStr = [] then (0, filename)
  else
    match atoi numStr with
    | none => (0, filename)
    | some num => (num, filename)

/-! ## Data model (file.go) -/

/-- `FileInfo` (file.go): a migration file name and its extracted version. -/
structure FileInfo where
  Path : Str
  Version : Nat
deriving DecidableEq, Repr

/-- `Muzo` (file.go): one migration set — a directory and its ordered,
filtered file list.  The `fs` handle only serves lazy content access and
carries no information used by the claims, so it is omitted. -/
structure Muzo where
  Dir : Str
  Files : List FileInfo
deriving DecidableEq, Repr

/-- `Migrate` (muz.go): the discovery configuration.  `Path`/`FS` select
the filesystem to walk; the walked filesystem is passed explicitly as a
tree argument to the discovery functions below, so those two fields are
not repeated here. -/
structure Migrate where
  Order : List Str
  Skip : List Str
  Extension : Str
deriving DecidableEq, Repr

/-! ## Splitting and joining slash-separated paths -/

/-- Split a string on `/` (as `doublestar.Match` splits patterns and names,
and as `filepath.Base` isolates the last path element).  The empty string
splits into one empty segment. -/
def splitSep : Str → List Str
  | [] => [[]]
  | c :: rest =>
    if c = sl then [] :: splitSep rest
    else
      match splitSep rest with
      | [] => [[c]]
      | seg :: segs => (c :: seg) :: segs

/-- Join path segments with `/` (inverse of `splitSep` on well-formed
segment lists). -/
def joinSegs : List Str → Str
  | [] => []
  | [d] => d
  | d :: e :: rest => d ++ sl :: joinSegs (e :: rest)

/-- `filepath.Base`, for the nonempty, non-trailing-slash paths that occur
here: the last slash-separated segment. -/
def basename (s : Str) : Str := (splitSep s).getLastD []

/-- Path joining as performed both by the walker (`fs.WalkDir` yields
root-relative paths, so children of `"."` are bare names) and by
`getMigrationFiles` (`fullPath := name` if `dir == "."`, else
`filepath.Join(dir, name)`). -/
def joinPath (dir name : Str) : Str :=
  if dir = ['.'] then name else dir ++ sl :: name

/-! ## The path filter (`shouldSkip` / `shouldSkipDir`, file.go) -/

/-- Glob match of one pattern segment against one name segment: `*`
matches any run of characters, anything else matches literally. -/
def matchSeg : Str → Str → Bool
  | [], [] => true
  | [], _ :: _ => false
  | p :: ps, s =>
    if p = st then
      matchSeg ps s ||
        (match s with
         | [] => false
         | _ :: tail => matchSeg (p :: ps) tail)
    else
      match s with
      | [] => false
      | c :: cs => p = c && matchSeg ps cs
termination_by p s => (p.length, s.length)

/-- Glob match of a segment-pattern list against a name-segment list: a
whole `**` segment matches any number of segments (including none). -/
def matchSegs : List Str → List Str → Bool
  | [], [] => true
  | [], _ :: _ => false
  | p :: ps, [] => p = [st, st] && matchSegs ps []
  | p :: ps, s :: ss =>
    if p = [st, st] then matchSegs ps (s :: ss) || matchSegs (p :: ps) ss
    else matchSeg p s && matchSegs ps ss
termination_by ps ss => (ps.length, ss.length)

/-- Modelled from the spec: `doublestar.Match` (an external dependency of
file.go, not part of this repository), restricted to the pattern language
the spec describes — patterns of literal characters, `*` (single-segment
wildcard) and whole-segment `**` (recursive wildcard); both pattern and
name are split on `/` and matched segment-wise. -/
def dsMatch (pattern name : Str) : Bool :=
  matchSegs (splitSep pattern) (splitSep name)

/-- `Migrate.shouldSkip` (file.go): the path matches some skip pattern
(leading `/` of the pattern stripped first). -/
def shouldSkip (m : Migrate) (path : Str) : Bool :=
  m.Skip.any fun skip => dsMatch (trimPrefixS skip [sl]) path

/-- `Migrate.shouldSkipDir` (file.go): the directory and its whole subtree
are skipped — the pattern equals the path exactly, or the pattern is
`<base>/**` and the path is `<base>` or lies beneath it. -/
def shouldSkipDir (m : Migrate) (path : Str) : Bool :=
  m.Skip.any fun skip =>
    let pattern := trimPrefixS skip [sl]
    pattern = path ||
      (hasSuffixS pattern [sl, st, st] &&
        (let basePattern := trimSuffixS pattern [sl, st, st]
         path = basePattern || hasPrefixS path (basePattern ++ [sl])))

/-! ## Sorting migration files (`sortMigrationFiles`, file.go) -/

/-- The comparator of `sortMigrationFiles` (file.go): compare the leading
numbers extracted from the base names (`aNum - bNum` as a Go `int`; both
operands fit in 63 bits after `extractLeadingNumber`, so the subtraction
is exact), break ties with `strings.Compare` on the names returned by
`extractLeadingNumber` (the full base names). -/
def fileCmp (a b : FileInfo) : Int :=
  let aNum := (extractLeadingNumber (basename a.Path)).1
  let aName := (extractLeadingNumber (basename a.Path)).2
  let bNum := (extractLeadingNumber (basename b.Path)).1
  let bName := (extractLeadingNumber (basename b.Path)).2
  if aNum ≠ bNum then (aNum : Int) - (bNum : Int) else cmpStr aName bName

/-- `sortMigrationFiles` (file.go): sort by `fileCmp`.  `slices.SortFunc`
is modelled by a merge sort; the comparator only ties on files with equal
version and equal base name, so (un)stability cannot change the result on
the distinct file names of one directory. -/
def sortMigrationFiles (files : List FileInfo) : List FileInfo :=
  files.mergeSort fun a b => fileCmp a b ≤ 0

/-! ## Collecting a directory's migration files (`getMigrationFiles`, file.go) -/

/-- `strings.ToLower`, character-wise. -/
def toLowerS (s : Str) : Str := s.map Char.toLower

/-- The per-entry body of `getMigrationFiles`'s loop (file.go): skip
entries matching a skip pattern (matched against the full relative path),
apply the optional case-insensitive extension suffix filter, extract the
leading number and keep the file only when it is positive. -/
def includeFile (m : Migrate) (dir name : Str) : Option FileInfo :=
  let fullPath := joinPath dir name
  if shouldSkip m fullPath then none
  else if m.Extension ≠ [] && ¬ hasSuffixS (toLowerS name) (toLowerS m.Extension) then none
  else
    let n := (extractLeadingNumber name).1
    if n > 0 then some ⟨name, n⟩ else none

/-- `getMigrationFiles` (file.go), given the directory's entry names (the
result of `fs.ReadDir` with subdirectory entries already dropped — the
loop skips `entry.IsDir()` entries): filter each entry, then sort. -/
def migFiles (m : Migrate) (dir : Str) (names : List Str) : List FileInfo :=
  sortMigrationFiles (names.filterMap (includeFile m dir))

/-! ## The directory walker (`getMigrationDirs`, file.go) -/

/-- A filesystem subtree: a directory with its (plain) file names and its
subdirectories. -/
inductive FTree where
  | node (name : Str) (files : List Str) (subs : List FTree)

def FTree.name : FTree → Str
  | .node n _ _ => n

def FTree.files : FTree → List Str
  | .node _ fs _ => fs

def FTree.subs : FTree → List FTree
  | .node _ _ cs => cs

/-- The root path `"."` at which `fs.WalkDir` starts. -/
def rootPath : Str := ['.']

mutual
/-- The walk of `getMigrationDirs` (file.go) from a directory node at
`path`: if `shouldSkipDir` holds the walker returns `fs.SkipDir` and the
whole subtree is pruned; otherwise the directory is recorded unless
`shouldSkip` soft-skips it, and the children are visited.  Each recorded
directory is paired with its file entries (in Go the entries are re-read
from the path by `getMigrationFiles`; the path uniquely identifies the
directory, so carrying them is equivalent). -/
def walkTree (m : Migrate) (path : Str) : FTree → List (Str × List Str)
  | .node _ fs subs =>
    if shouldSkipDir m path then []
    else
      (if shouldSkip m path then [] else [(path, fs)]) ++
        walkSubs m path subs
termination_by t => (sizeOf t, 0)

def walkSubs (m : Migrate) (path : Str) : List FTree → List (Str × List Str)
  | [] => []
  | c :: cs => walkTree m (joinPath path c.name) c ++ walkSubs m path cs
termination_by cs => (sizeOf cs, 1)
end

/-! ## Sorting directories (`sortDirs`, file.go) -/

/-- The `orderMap` of `sortDirs` (file.go): Go builds a map from each
`Order` entry (leading `/` stripped) to its index, later entries
overwriting earlier ones; looking up a key therefore yields the last
matching index. -/
def lookupOrderAux (key : Str) (i : Nat) : List Str → Option Nat
  | [] => none
  | o :: rest =>
    match lookupOrderAux key (i + 1) rest with
    | some j => some j
    | none => if trimPrefixS o [sl] = key then some i else none

def lookupOrder (order : List Str) (key : Str) : Option Nat :=
  lookupOrderAux key 0 order

/-- The comparator of `sortDirs` (file.go): directories present in the
order map come first, mutually ordered by their indices; the rest compare
lexically. -/
def dirCmp (order : List Str) (a b : Str) : Int :=
  match lookupOrder order a, lookupOrder order b with
  | some i, some j => (i : Int) - (j : Int)
  | some _, none => -1
  | none, some _ => 1
  | none, none => cmpStr a b

/-- `sortDirs` (file.go): with no configured order, plain lexical
ascending sort (`slices.Sort`); otherwise sort with `dirCmp`. -/
def sortDirs (m : Migrate) (dirs : List Str) : List Str :=
  if m.Order = [] then dirs.mergeSort fun a b => cmpStr a b ≤ 0
  else dirs.mergeSort fun a b => dirCmp m.Order a b ≤ 0

/-- `sortDirs` applied to the walker's `(path, entries)` pairs, keyed on
the path.  Paths uniquely identify directories, so sorting the pairs by
path is the source's "sort the path list, then `fs.ReadDir` each path". -/
def sortDirPairs (m : Migrate) (ps : List (Str × List Str)) : List (Str × List Str) :=
  if m.Order = [] then ps.mergeSort fun a b => cmpStr a.1 b.1 ≤ 0
  else ps.mergeSort fun a b => dirCmp m.Order a.1 b.1 ≤ 0

/-! ## Discovery (`iterMigrationInfo`, file.go) -/

/-- `iterMigrationInfo` (file.go) on a filesystem tree, success path:
collect the directories with `getMigrationDirs` (the walk from `"."`),
sort them with `sortDirs`, and yield one `Muzo` per directory with its
filtered, sorted files. -/
def migrationSets (m : Migrate) (t : FTree) : List Muzo :=
  (sortDirPairs m (walkTree m rootPath t)).map fun p =>
    ⟨p.1, migFiles m p.1 p.2⟩

/-- Well-formed directory/file names: nonempty, not `"."`, and free of
the separator and of glob metacharacters — the names a real filesystem
walk produces. -/
def wfName (n : Str) : Prop :=
  n ≠ [] ∧ n ≠ ['.'] ∧ sl ∉ n ∧ st ∉ n

instance (n : Str) : Decidable (wfName n) := by
  unfold wfName; infer_instance

/-- A well-formed filesystem tree: every directory and file name beneath
the root is well-formed. -/
inductive WfTree : FTree → Prop
  | node (n : Str) (files : List Str) (subs : List FTree)
      (hf : ∀ f ∈ files, wfName f)
      (hn : ∀ c ∈ subs, wfName c.name)
      (hs : ∀ c ∈ subs, WfTree c) :
      WfTree (.node n files subs)

/-- The directory node reached from `t` by following the child names
`segs`, having file entries `fs`. -/
inductive InTree : FTree → List Str → List Str → Prop
  | here (t : FTree) : InTree t [] t.files
  | step {t c : FTree} {segs fs} (hc : c ∈ t.subs)
      (h : InTree c segs fs) : InTree t (c.name :: segs) fs

/-! ## The reference storage driver (`PostgresDriver`, muz_test.go)

The driver's bookkeeping logic on its success path: SQL execution of file
contents and the transaction machinery are external capabilities; what
the claims are about is which files get applied and recorded. -/

/-- A row of the migration tracking table:
`(version integer, directory text, file_name text)` (the
`processed_at` timestamp carries no claim-relevant information). -/
structure Rec where
  version : Nat
  dir : Str
  fileName : Str
deriving DecidableEq, Repr

/-- `SELECT MAX(version) FROM table WHERE directory = $1`, with a `NULL`
result (no rows) read as version `0` (`PostgresDriver.Process`,
muz_test.go). -/
def maxVersion : List Rec → Str → Nat
  | [], _ => 0
  | r :: rest, d =>
    let m := maxVersion rest d
    if r.dir = d then max r.version m else m

/-- The file loop of `PostgresDriver.Process` (muz_test.go): skip files
whose version is at most the current high-water mark; otherwise execute
the file and `INSERT` its record, then advance the in-memory high-water
mark to the file's version.  Returns the grown record table, the final
high-water mark, and the applied files in order. -/
def processFiles (dir : Str) (recs : List Rec) (version : Nat) :
    List FileInfo → List Rec × Nat × List FileInfo
  | [] => (recs, version, [])
  | f :: rest =>
    if f.Version ≤ version then processFiles dir recs version rest
    else
      let out := processFiles dir (recs ++ [⟨f.Version, dir, f.Path⟩]) f.Version rest
      (out.1, out.2.1, f :: out.2.2)

/-- `PostgresDriver.Process` (muz_test.go) on one migration set: read the
directory's recorded high-water mark, then run the file loop. -/
def processMuzo (recs : List Rec) (mu : Muzo) : List Rec × List FileInfo :=
  let out := processFiles mu.Dir recs (maxVersion recs mu.Dir) mu.Files
  (out.1, out.2.2)

/-- One full run: `Process` applied to each migration set in discovery
order.  Returns the final record table and all applied files, each tagged
with its directory. -/
def runAll (recs : List Rec) : List Muzo → List Rec × List (Str × FileInfo)
  | [] => (recs, [])
  | mu :: rest =>
    let o1 := processMuzo recs mu
    let o2 := runAll o1.1 rest
    (o2.1, o1.2.map (fun f => (mu.Dir, f)) ++ o2.2)

/-! ## The orchestrator (`Migrate.Migrate`, muz.go) -/

/-- An abstract driver for the orchestrator model: each phase returns an
optional error and a next state.  `endFn`'s return value is part of the
interface (`End(ctx, err) error`). -/
structure DriverSpec (σ : Type) where
  start : σ → Option Nat × σ
  process : σ → Muzo → Option Nat × σ
  endFn : σ → Option Nat → Option Nat × σ

/-- The observable driver calls of one `Migrate.Migrate` run. -/
inductive DrvEvent where
  | start
  | process (dir : Str)
  | endCall (arg : Option Nat)
deriving DecidableEq, Repr

/-- The `for info, err := range m.Migrations()` loop of `Migrate.Migrate`
(muz.go): a discovery-error item or a failing `Process` ends the loop
with that error.  `deferredArg` is the argument the deferred
`driver.End(ctx, err)` call was created with: Go evaluates the arguments
of a `defer` statement at the point the statement executes, when the
named return `err` is still `nil` — so `End` is invoked with that frozen
`nil`, and its own return value is discarded by `defer`. -/
def migrateLoop {σ : Type} (drv : DriverSpec σ) (s : σ)
    (deferredArg : Option Nat) :
    List (Except Nat Muzo) → Option Nat × List DrvEvent
  | [] => (none, [DrvEvent.endCall deferredArg])
  | Except.error e :: _ => (some e, [DrvEvent.endCall deferredArg])
  | Except.ok mu :: rest =>
    match drv.process s mu with
    | (some e, _) => (some e, [DrvEvent.process mu.Dir, DrvEvent.endCall deferredArg])
    | (none, s') =>
      let out := migrateLoop drv s' deferredArg rest
      (out.1, DrvEvent.process mu.Dir :: out.2)

/-- `Migrate.Migrate` (muz.go): call `driver.Start`; on failure return its
error without any `End` call (the `defer` is registered only after the
`Start` check).  On success register `defer driver.End(ctx, err)` — whose
argument is evaluated *now*, while the named return `err` is `nil` — and
run the loop.  `ctxErr` is the state of `ctx.Err()`: the function body
never consults it (it only forwards `ctx` to the driver), which the model
makes explicit by taking and ignoring it. -/
def migrateModel {σ : Type} (drv : DriverSpec σ) (_ctxErr : Option Nat)
    (s0 : σ) (items : List (Except Nat Muzo)) : Option Nat × List DrvEvent :=
  match drv.start s0 with
  | (some e, _) => (some e, [DrvEvent.start])
  | (none, s1) =>
    let out := migrateLoop drv s1 none items
    (out.1, DrvEvent.start :: out.2)

/-- Shorthand for writing concrete Go strings. -/
def str (s : String) : Str := s.toList

/-- The version/name pair `fileCmp` compares on. -/
def fileKey (a : FileInfo) : Nat × Str :=
  extractLeadingNumber (basename a.Path)

/-- The ordering claim's relation: ascending by `(version, filename)`. -/
def fileOrdered (a b : FileInfo) : Prop :=
  a.Version < b.Version ∨ (a.Version = b.Version ∧ cmpStr a.Path b.Path ≤ 0)

/-- Fold `joinPath` along a segment list: the path of the node reached
from `path` by descending through directories named `segs`. -/
def joinAll (path : Str) (segs : List Str) : Str :=
  segs.foldl joinPath path

/-! ## Lemmas: version extraction and file sorting -/

theorem cmpStr_eq_zero_iff : ∀ {a b : Str}, cmpStr a b = 0 ↔ a = b := by
  intro a
  induction a with
  | nil => intro b; cases b <;> simp [cmpStr]
  | cons x xs ih =>
    intro b
    cases b with
    | nil => simp [cmpStr]
    | cons y ys =>
      by_cases hxy : x < y
      · simp [cmpStr, hxy]
        intro h; exact absurd (h ▸ hxy) (lt_irrefl y)
      · by_cases hyx : y < x
        · simp [cmpStr, hxy, hyx]
          intro h; exact absurd (h ▸ hyx) (lt_irrefl y)
        · have hxyeq : x = y := le_antisymm (le_of_not_lt hyx) (le_of_not_lt hxy)
          subst hxyeq
          simp [cmpStr, ih]

theorem cmpStr_swap : ∀ (a b : Str), cmpStr b a = -cmpStr a b := by
  intro a
  induction a with
  | nil => intro b; cases b <;> simp [cmpStr]
  | cons x xs ih =>
    intro b
    cases b with
    | nil => simp [cmpStr]
    | cons y ys =>
      by_cases hxy : x < y
      · have : ¬ y < x := fun h => absurd (lt_trans hxy h) (lt_irrefl x)
        simp [cmpStr, hxy, this]
      · by_cases hyx : y < x
        · simp [cmpStr, hxy, hyx]
        · simp [cmpStr, hxy, hyx, ih]

theorem cmpStr_trans : ∀ {a b c : Str},
    cmpStr a b ≤ 0 → cmpStr b c ≤ 0 → cmpStr a c ≤ 0 := by
  intro a
  induction a with
  | nil =>
    intro b c _ _
    cases c <;> simp [cmpStr]
  | cons x xs ih =>
    intro b c hab hbc
    cases b with
    | nil => simp [cmpStr] at hab
    | cons y ys =>
      cases c with
      | nil => simp [cmpStr] at hbc
      | cons z zs =>
        by_cases hxy : x < y
        · -- x < y and y ≤ z, so x < z
          have hyz : y ≤ z := by
            by_cases h1 : y < z
            · exact le_of_lt h1
            · by_cases h2 : z < y
              · simp [cmpStr, h1, h2] at hbc
              · exact le_of_not_lt h2
          have hxz : x < z := lt_of_lt_of_le hxy hyz
          have : ¬ z < x := fun h => absurd (lt_trans hxz h) (lt_irrefl x)
          simp [cmpStr, hxz]
        · by_cases hyx : y < x
          · simp [cmpStr, hxy, hyx] at hab
          · have hxyeq : x = y := le_antisymm (le_of_not_lt hyx) (le_of_not_lt hxy)
            subst hxyeq
            simp only [cmpStr, if_neg (lt_irrefl x)] at hab
            by_cases hyz : x < z
            · have : ¬ z < x := fun h => absurd (lt_trans hyz h) (lt_irrefl x)
              simp [cmpStr, hyz]
            · by_cases hzy : z < x
              · simp [cmpStr, hyz, hzy] at hbc
              · simp only [cmpStr, if_neg hyz, if_neg hzy] at hbc ⊢
                exact ih hab hbc

theorem cmpStr_total (a b : Str) : cmpStr a b ≤ 0 ∨ cmpStr b a ≤ 0 := by
  rcases le_or_lt (cmpStr a b) 0 with h | h
  · exact Or.inl h
  · right; rw [cmpStr_swap]; omega

theorem cmpStr_antisymm {a b : Str} (h1 : cmpStr a b ≤ 0) (h2 : cmpStr b a ≤ 0) :
    a = b := by
  rw [cmpStr_swap] at h2
  exact cmpStr_eq_zero_iff.mp (by omega)

theorem splitSep_ne_nil (s : Str) : splitSep s ≠ [] := by
  cases s with
  | nil => simp [splitSep]
  | cons c rest =>
    by_cases h : c = sl
    · simp [splitSep, h]
    · simp only [splitSep, if_neg h]
      cases splitSep rest <;> simp

theorem splitSep_no_sl {d : Str} (h : sl ∉ d) : splitSep d = [d] := by
  induction d with
  | nil => simp [splitSep]
  | cons c rest ih =>
    have hc : c ≠ sl := fun hc => h (hc ▸ List.mem_cons_self c rest)
    have hr : sl ∉ rest := fun hr => h (List.mem_cons_of_mem c hr)
    simp [splitSep, hc, ih hr]

theorem splitSep_append_sl {d : Str} (r : Str) (h : sl ∉ d) :
    splitSep (d ++ sl :: r) = d :: splitSep r := by
  induction d with
  | nil => simp [splitSep]
  | cons c rest ih =>
    have hc : c ≠ sl := fun hc => h (hc ▸ List.mem_cons_self c rest)
    have hr : sl ∉ rest := fun hr => h (List.mem_cons_of_mem c hr)
    simp [splitSep, hc, ih hr]

theorem splitSep_joinSegs : ∀ {ds : List Str}, ds ≠ [] →
    (∀ s ∈ ds, sl ∉ s) → splitSep (joinSegs ds) = ds := by
  intro ds
  induction ds with
  | nil => intro h; exact absurd rfl h
  | cons d rest ih =>
    intro _ hwf
    cases rest with
    | nil => exact splitSep_no_sl (hwf d (by simp))
    | cons e rest' =>
      have hd : sl ∉ d := hwf d (by simp)
      show splitSep (d ++ sl :: joinSegs (e :: rest')) = _
      rw [splitSep_append_sl _ hd,
        ih (by simp) (fun s hs => hwf s (List.mem_cons_of_mem d hs))]

theorem basename_no_sl {s : Str} (h : sl ∉ s) : basename s = s := by
  simp [basename, splitSep_no_sl h]


theorem extractLeadingNumber_snd (s : Str) : (extractLeadingNumber s).2 = s := by
  by_cases h : s.takeWhile isDigitC = []
  · simp [extractLeadingNumber, h]
  · simp only [extractLeadingNumber, if_neg h]
    cases atoi (s.takeWhile isDigitC) <;> simp

theorem fileCmp_le_iff (a b : FileInfo) :
    fileCmp a b ≤ 0 ↔
      (fileKey a).1 < (fileKey b).1 ∨
        ((fileKey a).1 = (fileKey b).1 ∧ cmpStr (fileKey a).2 (fileKey b).2 ≤ 0) := by
  unfold fileCmp fileKey
  by_cases h : (extractLeadingNumber (basename a.Path)).1 =
      (extractLeadingNumber (basename b.Path)).1
  · simp [h]
  · simp only [if_pos h, h, false_and, or_false]
    omega

theorem fileCmp_trans {a b c : FileInfo}
    (h1 : fileCmp a b ≤ 0) (h2 : fileCmp b c ≤ 0) : fileCmp a c ≤ 0 := by
  rw [fileCmp_le_iff] at h1 h2 ⊢
  rcases h1 with h1 | ⟨h1e, h1s⟩
  · rcases h2 with h2 | ⟨h2e, _⟩
    · exact Or.inl (lt_trans h1 h2)
    · exact Or.inl (h2e ▸ h1)
  · rcases h2 with h2 | ⟨h2e, h2s⟩
    · exact Or.inl (h1e ▸ h2)
    · exact Or.inr ⟨h1e.trans h2e, cmpStr_trans h1s h2s⟩

theorem fileCmp_total (a b : FileInfo) : fileCmp a b ≤ 0 ∨ fileCmp b a ≤ 0 := by
  rw [fileCmp_le_iff, fileCmp_le_iff]
  rcases Nat.lt_trichotomy (fileKey a).1 (fileKey b).1 with h | h | h
  · exact Or.inl (Or.inl h)
  · rcases cmpStr_total (fileKey a).2 (fileKey b).2 with hs | hs
    · exact Or.inl (Or.inr ⟨h, hs⟩)
    · exact Or.inr (Or.inr ⟨h.symm, hs⟩)
  · exact Or.inr (Or.inl h)

/-- Every file produced by `includeFile` records exactly the version that
`extractLeadingNumber` yields for its (slash-free) name. -/
theorem includeFile_inv {m : Migrate} {dir name : Str} {f : FileInfo}
    (h : includeFile m dir name = some f) :
    f.Path = name ∧ f.Version = (extractLeadingNumber name).1 := by
  simp only [includeFile] at h
  split at h
  · simp at h
  · split at h
    · simp at h
    · split at h
      · cases h
        exact ⟨rfl, rfl⟩
      · simp at h

theorem fileLeB_trans (a b c : FileInfo)
    (h1 : decide (fileCmp a b ≤ 0) = true) (h2 : decide (fileCmp b c ≤ 0) = true) :
    decide (fileCmp a c ≤ 0) = true :=
  decide_eq_true (fileCmp_trans (of_decide_eq_true h1) (of_decide_eq_true h2))

theorem fileLeB_total (a b : FileInfo) :
    (decide (fileCmp a b ≤ 0) || decide (fileCmp b a ≤ 0)) = true := by
  rcases fileCmp_total a b with h | h <;> simp [h]

/-- The file list built by `getMigrationFiles` from slash-free entry
names is sorted ascending by `(version, filename)`. -/
theorem migFiles_pairwise (m : Migrate) (dir : Str) (names : List Str)
    (hwf : ∀ n ∈ names, sl ∉ n) :
    (migFiles m dir names).Pairwise fileOrdered := by
  unfold migFiles sortMigrationFiles
  have hsorted := @List.sorted_mergeSort FileInfo
    (fun a b => decide (fileCmp a b ≤ 0)) fileLeB_trans fileLeB_total
    (names.filterMap (includeFile m dir))
  refine List.Pairwise.imp_of_mem ?_ hsorted
  intro a b ha hb hab
  rw [List.mem_mergeSort] at ha hb
  obtain ⟨na, hna, hfa⟩ := List.mem_filterMap.mp ha
  obtain ⟨nb, hnb, hfb⟩ := List.mem_filterMap.mp hb
  obtain ⟨hpa, hva⟩ := includeFile_inv hfa
  obtain ⟨hpb, hvb⟩ := includeFile_inv hfb
  have hsla : sl ∉ a.Path := hpa ▸ hwf na hna
  have hslb : sl ∉ b.Path := hpb ▸ hwf nb hnb
  have hkeya : fileKey a = (a.Version, a.Path) := by
    unfold fileKey
    rw [basename_no_sl hsla]
    rw [Prod.ext_iff]
    refine ⟨?_, extractLeadingNumber_snd _⟩
    rw [hpa, hva]
  have hkeyb : fileKey b = (b.Version, b.Path) := by
    unfold fileKey
    rw [basename_no_sl hslb]
    rw [Prod.ext_iff]
    refine ⟨?_, extractLeadingNumber_snd _⟩
    rw [hpb, hvb]
  have := (fileCmp_le_iff a b).mp (of_decide_eq_true hab)
  rw [hkeya, hkeyb] at this
  exact this

/-! ## Lemmas: the driver's bookkeeping (`PostgresDriver.Process`) -/

theorem maxVersion_append (a b : List Rec) (d : Str) :
    maxVersion (a ++ b) d = max (maxVersion a d) (maxVersion b d) := by
  induction a with
  | nil => simp [maxVersion]
  | cons r rest ih =>
    by_cases h : r.dir = d <;> simp [maxVersion, h, ih, Nat.max_assoc]

theorem maxVersion_mono {a b : List Rec} (h : a <+: b) (d : Str) :
    maxVersion a d ≤ maxVersion b d := by
  obtain ⟨t, rfl⟩ := h
  rw [maxVersion_append]
  exact Nat.le_max_left _ _

theorem version_le_maxVersion {r : Rec} {recs : List Rec} (h : r ∈ recs) :
    r.version ≤ maxVersion recs r.dir := by
  induction recs with
  | nil => cases h
  | cons x rest ih =>
    rcases List.mem_cons.mp h with rfl | hmem
    · simp [maxVersion]
    · have := ih hmem
      by_cases hx : x.dir = r.dir <;> simp [maxVersion, hx] <;> omega

theorem processFiles_recs_grow (dir : Str) (files : List FileInfo) :
    ∀ recs v, recs <+: (processFiles dir recs v files).1 := by
  induction files with
  | nil => intro recs v; exact List.prefix_refl _
  | cons f rest ih =>
    intro recs v
    by_cases h : f.Version ≤ v
    · simpa [processFiles, h] using ih recs v
    · simp only [processFiles, if_neg h]
      exact (List.prefix_append recs _).trans (ih (recs ++ [⟨f.Version, dir, f.Path⟩]) f.Version)

theorem processFiles_hwm_ge_init (dir : Str) (files : List FileInfo) :
    ∀ recs v, v ≤ (processFiles dir recs v files).2.1 := by
  induction files with
  | nil => intro recs v; simp [processFiles]
  | cons f rest ih =>
    intro recs v
    by_cases h : f.Version ≤ v
    · simpa [processFiles, h] using ih recs v
    · simp only [processFiles, if_neg h]
      exact le_of_lt (lt_of_not_le h |>.trans_le (ih _ f.Version))

theorem processFiles_hwm_ge_mem (dir : Str) (files : List FileInfo) :
    ∀ recs v, ∀ f ∈ files, f.Version ≤ (processFiles dir recs v files).2.1 := by
  induction files with
  | nil => intro recs v f hf; cases hf
  | cons g rest ih =>
    intro recs v f hf
    rcases List.mem_cons.mp hf with rfl | hmem
    · by_cases h : f.Version ≤ v
      · simp only [processFiles, if_pos h]
        exact h.trans (processFiles_hwm_ge_init dir rest recs v)
      · simp only [processFiles, if_neg h]
        exact processFiles_hwm_ge_init dir rest _ f.Version
    · by_cases h : g.Version ≤ v
      · simp only [processFiles, if_pos h]
        exact ih recs v f hmem
      · simp only [processFiles, if_neg h]
        exact ih _ g.Version f hmem

theorem processFiles_hwm_le (dir : Str) (files : List FileInfo) :
    ∀ recs v, (processFiles dir recs v files).2.1 ≤
      max v (maxVersion (processFiles dir recs v files).1 dir) := by
  induction files with
  | nil => intro recs v; simp [processFiles]
  | cons f rest ih =>
    intro recs v
    by_cases h : f.Version ≤ v
    · simpa [processFiles, h] using ih recs v
    · simp only [processFiles, if_neg h]
      have hrec : (⟨f.Version, dir, f.Path⟩ : Rec) ∈
          (processFiles dir (recs ++ [⟨f.Version, dir, f.Path⟩]) f.Version rest).1 :=
        (processFiles_recs_grow dir rest _ f.Version).subset
          (List.mem_append_right recs (List.mem_singleton_self _))
      have hle : f.Version ≤
          maxVersion (processFiles dir (recs ++ [⟨f.Version, dir, f.Path⟩]) f.Version rest).1 dir :=
        version_le_maxVersion hrec
      calc (processFiles dir (recs ++ [⟨f.Version, dir, f.Path⟩]) f.Version rest).2.1
          ≤ max f.Version
            (maxVersion (processFiles dir (recs ++ [⟨f.Version, dir, f.Path⟩]) f.Version rest).1 dir) :=
            ih (recs ++ [⟨f.Version, dir, f.Path⟩]) f.Version
        _ = maxVersion (processFiles dir (recs ++ [⟨f.Version, dir, f.Path⟩]) f.Version rest).1 dir :=
            max_eq_right hle
        _ ≤ max v (maxVersion (processFiles dir (recs ++ [⟨f.Version, dir, f.Path⟩]) f.Version rest).1 dir) :=
            le_max_right _ _

theorem processFiles_noop (dir : Str) (files : List FileInfo) (recs : List Rec) (v : Nat)
    (h : ∀ f ∈ files, f.Version ≤ v) :
    processFiles dir recs v files = (recs, v, []) := by
  induction files with
  | nil => rfl
  | cons f rest ih =>
    have hf : f.Version ≤ v := h f (List.mem_cons_self f rest)
    simp only [processFiles, if_pos hf]
    exact ih fun g hg => h g (List.mem_cons_of_mem f hg)

theorem processFiles_applied_gt (dir : Str) (files : List FileInfo) :
    ∀ recs v, ∀ g ∈ (processFiles dir recs v files).2.2, v < g.Version := by
  induction files with
  | nil => intro recs v g hg; cases hg
  | cons f rest ih =>
    intro recs v g hg
    by_cases h : f.Version ≤ v
    · simp only [processFiles, if_pos h] at hg
      exact ih recs v g hg
    · simp only [processFiles, if_neg h] at hg
      rcases List.mem_cons.mp hg with rfl | hmem
      · exact lt_of_not_le h
      · exact lt_of_not_le h |>.trans (ih _ f.Version g hmem)

theorem processFiles_applied_pairwise (dir : Str) (files : List FileInfo) :
    ∀ recs v, (processFiles dir recs v files).2.2.Pairwise
      fun a b => a.Version < b.Version := by
  induction files with
  | nil => intro recs v; simp [processFiles]
  | cons f rest ih =>
    intro recs v
    by_cases h : f.Version ≤ v
    · simpa [processFiles, h] using ih recs v
    · simp only [processFiles, if_neg h]
      exact List.Pairwise.cons
        (fun g hg => processFiles_applied_gt dir rest _ f.Version g hg) (ih _ f.Version)

theorem processFiles_applied_recorded (dir : Str) (files : List FileInfo) :
    ∀ recs v, ∀ g ∈ (processFiles dir recs v files).2.2,
      (⟨g.Version, dir, g.Path⟩ : Rec) ∈ (processFiles dir recs v files).1 := by
  induction files with
  | nil => intro recs v g hg; cases hg
  | cons f rest ih =>
    intro recs v g hg
    by_cases h : f.Version ≤ v
    · simp only [processFiles, if_pos h] at hg ⊢
      exact ih recs v g hg
    · simp only [processFiles, if_neg h] at hg ⊢
      rcases List.mem_cons.mp hg with rfl | hmem
      · exact (processFiles_recs_grow dir rest _ g.Version).subset
          (List.mem_append_right recs (List.mem_singleton_self _))
      · exact ih _ f.Version g hmem

theorem processFiles_applied_sublist (dir : Str) (files : List FileInfo) :
    ∀ recs v, List.Sublist (processFiles dir recs v files).2.2 files := by
  induction files with
  | nil => intro recs v; simp [processFiles]
  | cons f rest ih =>
    intro recs v
    by_cases h : f.Version ≤ v
    · simp only [processFiles, if_pos h]
      exact (ih recs v).cons f
    · simp only [processFiles, if_neg h]
      exact (ih _ f.Version).cons₂ f

theorem processMuzo_recs_grow (recs : List Rec) (mu : Muzo) :
    recs <+: (processMuzo recs mu).1 :=
  processFiles_recs_grow mu.Dir mu.Files recs _

theorem processMuzo_bound (recs : List Rec) (mu : Muzo) :
    ∀ f ∈ mu.Files, f.Version ≤ maxVersion (processMuzo recs mu).1 mu.Dir := by
  intro f hf
  have h1 := processFiles_hwm_ge_mem mu.Dir mu.Files recs (maxVersion recs mu.Dir) f hf
  have h2 := processFiles_hwm_le mu.Dir mu.Files recs (maxVersion recs mu.Dir)
  have h3 : maxVersion recs mu.Dir ≤
      maxVersion (processFiles mu.Dir recs (maxVersion recs mu.Dir) mu.Files).1 mu.Dir :=
    maxVersion_mono (processFiles_recs_grow mu.Dir mu.Files recs _) mu.Dir
  rw [max_eq_right h3] at h2
  show f.Version ≤
    maxVersion (processFiles mu.Dir recs (maxVersion recs mu.Dir) mu.Files).1 mu.Dir
  exact h1.trans h2

theorem processMuzo_noop (recs : List Rec) (mu : Muzo)
    (h : ∀ f ∈ mu.Files, f.Version ≤ maxVersion recs mu.Dir) :
    processMuzo recs mu = (recs, []) := by
  unfold processMuzo
  rw [processFiles_noop mu.Dir mu.Files recs _ h]

theorem runAll_recs_grow (sets : List Muzo) :
    ∀ recs, recs <+: (runAll recs sets).1 := by
  induction sets with
  | nil => intro recs; exact List.prefix_refl _
  | cons mu rest ih =>
    intro recs
    exact (processMuzo_recs_grow recs mu).trans (ih _)

theorem runAll_bound (sets : List Muzo) :
    ∀ recs, ∀ mu ∈ sets, ∀ f ∈ mu.Files,
      f.Version ≤ maxVersion (runAll recs sets).1 mu.Dir := by
  induction sets with
  | nil => intro recs mu hmu; cases hmu
  | cons s rest ih =>
    intro recs mu hmu f hf
    rcases List.mem_cons.mp hmu with rfl | hmem
    · exact (processMuzo_bound recs mu f hf).trans
        (maxVersion_mono (runAll_recs_grow rest _) mu.Dir)
    · exact ih (processMuzo recs s).1 mu hmem f hf

theorem runAll_noop (sets : List Muzo) (recs : List Rec)
    (h : ∀ mu ∈ sets, ∀ f ∈ mu.Files, f.Version ≤ maxVersion recs mu.Dir) :
    runAll recs sets = (recs, []) := by
  induction sets with
  | nil => rfl
  | cons s rest ih =>
    have hs := processMuzo_noop recs s fun f hf => h s (List.mem_cons_self s rest) f hf
    simp only [runAll, hs]
    rw [ih fun mu hmu f hf => h mu (List.mem_cons_of_mem s hmu) f hf]
    simp

theorem runAll_applied_gt (sets : List Muzo) :
    ∀ recs, ∀ p ∈ (runAll recs sets).2, maxVersion recs p.1 < p.2.Version := by
  induction sets with
  | nil => intro recs p hp; cases hp
  | cons s rest ih =>
    intro recs p hp
    simp only [runAll, List.mem_append, List.mem_map] at hp
    rcases hp with ⟨g, hg, rfl⟩ | hp
    · exact processFiles_applied_gt s.Dir s.Files recs _ g hg
    · exact lt_of_le_of_lt
        (maxVersion_mono (processMuzo_recs_grow recs s) p.1) (ih _ p hp)

theorem runAll_applied_recorded (sets : List Muzo) :
    ∀ recs, ∀ p ∈ (runAll recs sets).2,
      (⟨p.2.Version, p.1, p.2.Path⟩ : Rec) ∈ (runAll recs sets).1 := by
  induction sets with
  | nil => intro recs p hp; cases hp
  | cons s rest ih =>
    intro recs p hp
    simp only [runAll, List.mem_append, List.mem_map] at hp
    rcases hp with ⟨g, hg, rfl⟩ | hp
    · exact (runAll_recs_grow rest _).subset
        (processFiles_applied_recorded s.Dir s.Files recs _ g hg)
    · exact ih _ p hp

theorem runAll_applied_pairwise (sets : List Muzo) :
    ∀ recs, (runAll recs sets).2.Pairwise
      fun p q => p.1 = q.1 → p.2.Version < q.2.Version := by
  induction sets with
  | nil => intro recs; simp [runAll]
  | cons s rest ih =>
    intro recs
    simp only [runAll]
    rw [List.pairwise_append]
    refine ⟨?_, ih _, ?_⟩
    · exact (processFiles_applied_pairwise s.Dir s.Files recs _).map _
        fun a b h _ => h
    · intro p hp q hq hdir
      obtain ⟨g, hg, rfl⟩ := List.mem_map.mp hp
      have hrec : (⟨g.Version, s.Dir, g.Path⟩ : Rec) ∈ (processMuzo recs s).1 :=
        processFiles_applied_recorded s.Dir s.Files recs _ g hg
      have h1 : g.Version ≤ maxVersion (processMuzo recs s).1 s.Dir :=
        version_le_maxVersion hrec
      have h2 := runAll_applied_gt rest (processMuzo recs s).1 q hq
      simp only at hdir
      rw [hdir] at h1
      show g.Version < q.2.Version
      exact lt_of_le_of_lt h1 h2

theorem processFiles_append (dir : Str) (xs ys : List FileInfo) :
    ∀ recs v, processFiles dir recs v (xs ++ ys) =
      ((processFiles dir (processFiles dir recs v xs).1
          (processFiles dir recs v xs).2.1 ys).1,
        (processFiles dir (processFiles dir recs v xs).1
          (processFiles dir recs v xs).2.1 ys).2.1,
        (processFiles dir recs v xs).2.2 ++
          (processFiles dir (processFiles dir recs v xs).1
            (processFiles dir recs v xs).2.1 ys).2.2) := by
  induction xs with
  | nil => intro recs v; simp [processFiles]
  | cons f rest ih =>
    intro recs v
    by_cases h : f.Version ≤ v
    · simp only [List.cons_append, processFiles, if_pos h]
      exact ih recs v
    · simp only [List.cons_append, processFiles, if_neg h]
      exact congrArg (fun p => (p.1, p.2.1, f :: p.2.2))
        (ih (recs ++ [⟨f.Version, dir, f.Path⟩]) f.Version)

theorem processFiles_hwm_lt (dir : Str) (files : List FileInfo) (w : Nat) :
    ∀ recs v, v < w → (∀ f ∈ files, f.Version < w) →
      (processFiles dir recs v files).2.1 < w := by
  induction files with
  | nil => intro recs v hv _; simpa [processFiles] using hv
  | cons f rest ih =>
    intro recs v hv hall
    by_cases h : f.Version ≤ v
    · simp only [processFiles, if_pos h]
      exact ih recs v hv fun g hg => hall g (List.mem_cons_of_mem f hg)
    · simp only [processFiles, if_neg h]
      exact ih _ f.Version (hall f (List.mem_cons_self f rest))
        fun g hg => hall g (List.mem_cons_of_mem f hg)

/-! ## Lemmas: directory ordering (`sortDirs`) -/

theorem lookupOrderAux_le (key : Str) :
    ∀ (order : List Str) (i j : Nat),
      lookupOrderAux key i order = some j → i ≤ j := by
  intro order
  induction order with
  | nil => intro i j h; simp [lookupOrderAux] at h
  | cons o rest ih =>
    intro i j h
    simp only [lookupOrderAux] at h
    rcases hr : lookupOrderAux key (i + 1) rest with _ | j'
    · rw [hr] at h
      simp only at h
      split at h
      · cases h; exact le_refl _
      · cases h
    · rw [hr] at h
      simp only at h
      cases h
      exact (Nat.le_succ i).trans (ih (i + 1) _ hr)

theorem lookupOrderAux_some_unique (key key' : Str) :
    ∀ (order : List Str) (i j : Nat),
      lookupOrderAux key i order = some j →
      lookupOrderAux key' i order = some j → key = key' := by
  intro order
  induction order with
  | nil => intro i j h; simp [lookupOrderAux] at h
  | cons o rest ih =>
    intro i j h h'
    simp only [lookupOrderAux] at h h'
    rcases hr : lookupOrderAux key (i + 1) rest with _ | j1 <;> rw [hr] at h <;>
      rcases hr' : lookupOrderAux key' (i + 1) rest with _ | j2 <;> rw [hr'] at h'
    · simp only at h h'
      split at h
      · split at h'
        · cases h; cases h'
          rw [← ‹trimPrefixS o [sl] = key›, ← ‹trimPrefixS o [sl] = key'›]
        · cases h'
      · cases h
    · simp only at h h'
      cases h'
      split at h
      · cases h
        exact absurd (lookupOrderAux_le key' rest (i + 1) i hr') (by omega)
      · cases h
    · simp only at h h'
      cases h
      split at h'
      · cases h'
        exact absurd (lookupOrderAux_le key rest (i + 1) i hr) (by omega)
      · cases h'
    · simp only at h h'
      cases h; cases h'
      exact ih (i + 1) _ hr (by rw [hr'])

theorem lookupOrder_some_inj {order : List Str} {a b : Str} {i : Nat}
    (ha : lookupOrder order a = some i) (hb : lookupOrder order b = some i) :
    a = b :=
  lookupOrderAux_some_unique a b order 0 i ha hb

theorem lookupOrderAux_none_iff (key : Str) :
    ∀ (order : List Str) (i : Nat),
      lookupOrderAux key i order = none ↔
        key ∉ order.map (trimPrefixS · [sl]) := by
  intro order
  induction order with
  | nil => intro i; simp [lookupOrderAux]
  | cons o rest ih =>
    intro i
    simp only [lookupOrderAux, List.map_cons, List.mem_cons]
    rcases hr : lookupOrderAux key (i + 1) rest with _ | j'
    · dsimp only
      by_cases ho : trimPrefixS o [sl] = key
      · simp only [if_pos ho]
        constructor
        · intro h; cases h
        · intro h
          exact absurd (Or.inl ho.symm) h
      · simp only [if_neg ho]
        constructor
        · intro _
          rintro (he | hm)
          · exact ho he.symm
          · exact (ih (i + 1)).mp hr hm
        · intro _; trivial
    · dsimp only
      constructor
      · intro h; cases h
      · intro h
        have hnone := (ih (i + 1)).mpr fun hm => h (Or.inr hm)
        rw [hr] at hnone
        cases hnone

theorem lookupOrder_none_iff (order : List Str) (key : Str) :
    lookupOrder order key = none ↔ key ∉ order.map (trimPrefixS · [sl]) :=
  lookupOrderAux_none_iff key order 0

theorem lookupOrderAux_get :
    ∀ (order : List Str), (order.map (trimPrefixS · [sl])).Nodup →
      ∀ (k : Nat) (hk : k < order.length) (i : Nat),
        lookupOrderAux (trimPrefixS order[k] [sl]) i order = some (i + k) := by
  intro order
  induction order with
  | nil => intro _ k hk; simp at hk
  | cons o rest ih =>
    intro hnd k hk i
    simp only [List.map_cons, List.nodup_cons] at hnd
    match k with
    | 0 =>
      simp only [List.getElem_cons_zero, lookupOrderAux]
      have hnone : lookupOrderAux (trimPrefixS o [sl]) (i + 1) rest = none :=
        (lookupOrderAux_none_iff _ rest (i + 1)).mpr hnd.1
      rw [hnone]
      simp
    | k' + 1 =>
      have hk' : k' < rest.length := by simpa using hk
      simp only [List.getElem_cons_succ, lookupOrderAux]
      rw [ih hnd.2 k' hk' (i + 1)]
      simp only
      congr 1
      omega

theorem lookupOrder_get (order : List Str)
    (hnd : (order.map (trimPrefixS · [sl])).Nodup)
    (k : Nat) (hk : k < order.length) :
    lookupOrder order (trimPrefixS order[k] [sl]) = some k := by
  simpa using lookupOrderAux_get order hnd k hk 0

theorem dirCmp_trans (order : List Str) {a b c : Str}
    (h1 : dirCmp order a b ≤ 0) (h2 : dirCmp order b c ≤ 0) :
    dirCmp order a c ≤ 0 := by
  unfold dirCmp at h1 h2 ⊢
  rcases ha : lookupOrder order a with _ | i <;>
    rcases hb : lookupOrder order b with _ | j <;>
      rcases hc : lookupOrder order c with _ | k <;>
        rw [ha, hb] at h1 <;> rw [hb, hc] at h2 <;> simp_all
  · exact cmpStr_trans h1 h2
  · omega

theorem dirCmp_total (order : List Str) (a b : Str) :
    dirCmp order a b ≤ 0 ∨ dirCmp order b a ≤ 0 := by
  unfold dirCmp
  rcases ha : lookupOrder order a with _ | i <;>
    rcases hb : lookupOrder order b with _ | j <;> simp
  · exact cmpStr_total a b
  · omega

theorem dirCmp_antisymm (order : List Str) {a b : Str}
    (h1 : dirCmp order a b ≤ 0) (h2 : dirCmp order b a ≤ 0) : a = b := by
  unfold dirCmp at h1 h2
  rcases ha : lookupOrder order a with _ | i <;>
    rcases hb : lookupOrder order b with _ | j <;>
      rw [ha, hb] at h1 h2 <;> simp_all
  · exact cmpStr_antisymm h1 h2
  · have : i = j := by omega
    exact lookupOrder_some_inj ha (this ▸ hb)

/-! ## Lemmas: paths and the glob matcher -/

theorem joinSegs_append_sl {ds : List Str} (x : Str) (hds : ds ≠ []) :
    joinSegs (ds ++ [x]) = joinSegs ds ++ sl :: x := by
  induction ds with
  | nil => exact absurd rfl hds
  | cons d rest ih =>
    cases rest with
    | nil => rfl
    | cons e rest' =>
      show joinSegs (d :: ((e :: rest') ++ [x])) =
        (d ++ sl :: joinSegs (e :: rest')) ++ sl :: x
      have hcons : (e :: rest') ++ [x] = e :: (rest' ++ [x]) := rfl
      rw [hcons]
      have hL : joinSegs (d :: e :: (rest' ++ [x])) =
          d ++ sl :: joinSegs (e :: (rest' ++ [x])) := rfl
      rw [hL, ← hcons, ih (by simp)]
      simp

theorem st_not_mem_joinSegs {ds : List Str} (h : ∀ s ∈ ds, st ∉ s) :
    st ∉ joinSegs ds := by
  induction ds with
  | nil => simp [joinSegs]
  | cons d rest ih =>
    cases rest with
    | nil => exact h d (by simp)
    | cons e rest' =>
      show st ∉ d ++ sl :: joinSegs (e :: rest')
      intro hmem
      rcases List.mem_append.mp hmem with hd | hsl
      · exact h d (by simp) hd
      · rcases List.mem_cons.mp hsl with heq | htail
        · exact absurd heq (by decide)
        · exact ih (fun s hs => h s (List.mem_cons_of_mem d hs)) htail

theorem sl_not_mem_of_wfName {n : Str} (h : wfName n) : sl ∉ n := h.2.2.1

theorem st_not_mem_of_wfName {n : Str} (h : wfName n) : st ∉ n := h.2.2.2

theorem joinSegs_head {ds : List Str} (hds : ds ≠ [])
    (hwf : ∀ s ∈ ds, wfName s) :
    ∃ c cs, joinSegs ds = c :: cs ∧ c ≠ sl := by
  cases ds with
  | nil => exact absurd rfl hds
  | cons d rest =>
    have hd := hwf d (by simp)
    obtain ⟨c, cs, hc⟩ : ∃ c cs, d = c :: cs := by
      cases d with
      | nil => exact absurd rfl hd.1
      | cons c cs => exact ⟨c, cs, rfl⟩
    have hcsl : c ≠ sl := fun he => sl_not_mem_of_wfName hd (he ▸ hc ▸ List.mem_cons_self c cs)
    cases rest with
    | nil => exact ⟨c, cs, by simp [joinSegs, hc], hcsl⟩
    | cons e rest' =>
      exact ⟨c, cs ++ sl :: joinSegs (e :: rest'), by simp [joinSegs, hc], hcsl⟩

theorem joinSegs_ne_root {ds : List Str} (hds : ds ≠ [])
    (hwf : ∀ s ∈ ds, wfName s) : joinSegs ds ≠ rootPath := by
  cases ds with
  | nil => exact absurd rfl hds
  | cons d rest =>
    cases rest with
    | nil => exact (hwf d (by simp)).2.1
    | cons e rest' =>
      show d ++ sl :: joinSegs (e :: rest') ≠ rootPath
      intro h
      have hlen := congrArg List.length h
      have hd : d ≠ [] := (hwf d (by simp)).1
      have : 1 ≤ d.length := List.length_pos.mpr hd
      simp [rootPath] at hlen
      omega

theorem trimPrefixS_joinSegs {ds : List Str} (x : List Char) (hds : ds ≠ [])
    (hwf : ∀ s ∈ ds, wfName s) :
    trimPrefixS (joinSegs ds ++ x) [sl] = joinSegs ds ++ x := by
  obtain ⟨c, cs, hc, hcsl⟩ := joinSegs_head hds hwf
  rw [hc]
  show trimPrefixS (c :: (cs ++ x)) [sl] = _
  unfold trimPrefixS
  have : [sl].isPrefixOf (c :: (cs ++ x)) = false := by
    simp [List.isPrefixOf, Ne.symm hcsl]
  simp [this]

theorem joinAll_cons (path s : Str) (segs : List Str) :
    joinAll path (s :: segs) = joinAll (joinPath path s) segs := rfl

theorem joinSegs_glue (a b : Str) (rest : List Str) :
    joinSegs ((a ++ sl :: b) :: rest) = a ++ sl :: joinSegs (b :: rest) := by
  cases rest with
  | nil => rfl
  | cons r rest' =>
    show (a ++ sl :: b) ++ sl :: joinSegs (r :: rest') =
      a ++ sl :: (b ++ sl :: joinSegs (r :: rest'))
    simp

theorem joinAll_acc (segs : List Str) :
    ∀ d : Str, d ≠ rootPath → joinAll d segs = joinSegs (d :: segs) := by
  induction segs with
  | nil => intro d _; rfl
  | cons e rest ih =>
    intro d hd
    rw [joinAll_cons]
    have hd' : d ≠ ['.'] := by simpa [rootPath] using hd
    have hjp : joinPath d e = d ++ sl :: e := by
      simp [joinPath, hd']
    rw [hjp]
    have hne : d ++ sl :: e ≠ rootPath := by
      cases d with
      | nil => intro h; cases h
      | cons c cs =>
        intro h
        have := congrArg List.length h
        simp [rootPath] at this
    rw [ih _ hne]
    show joinSegs ((d ++ sl :: e) :: rest) = _
    rw [joinSegs_glue]
    rfl

theorem joinAll_root {segs : List Str} (hne : segs ≠ [])
    (hwf : ∀ s ∈ segs, wfName s) :
    joinAll rootPath segs = joinSegs segs := by
  cases segs with
  | nil => exact absurd rfl hne
  | cons s rest =>
    rw [joinAll_cons]
    have : joinPath rootPath s = s := by simp [joinPath, rootPath]
    rw [this, joinAll_acc rest s (hwf s (by simp)).2.1]

theorem matchSeg_star_all (s : Str) : matchSeg [st] s = true := by
  induction s with
  | nil => simp [matchSeg]
  | cons c cs ih => simp [matchSeg, ih]

theorem matchSeg_self {p : Str} (h : st ∉ p) : matchSeg p p = true := by
  induction p with
  | nil => simp [matchSeg]
  | cons c cs ih =>
    have hc : c ≠ st := fun he => h (he ▸ List.mem_cons_self c cs)
    simp only [matchSeg, if_neg hc]
    simp [ih fun hm => h (List.mem_cons_of_mem c hm)]

theorem matchSegs_literal_prefix (ds : List Str) (hds : ∀ d ∈ ds, st ∉ d) :
    ∀ ps ss, matchSegs (ds ++ ps) (ds ++ ss) = matchSegs ps ss := by
  induction ds with
  | nil => intro ps ss; rfl
  | cons d rest ih =>
    intro ps ss
    have hd : st ∉ d := hds d (by simp)
    have hdss : d ≠ [st, st] := fun he => hd (he ▸ by simp)
    show matchSegs (d :: (rest ++ ps)) (d :: (rest ++ ss)) = _
    simp only [matchSegs, if_neg hdss]
    rw [matchSeg_self hd, ih fun s hs => hds s (List.mem_cons_of_mem d hs)]
    simp

theorem dsMatch_dirstar_child {ds : List Str} (hds : ds ≠ [])
    (hwf : ∀ s ∈ ds, wfName s) (n : Str) (hn : sl ∉ n) :
    dsMatch (joinSegs ds ++ [sl, st]) (joinSegs ds ++ sl :: n) = true := by
  have hpat : joinSegs ds ++ [sl, st] = joinSegs (ds ++ [[st]]) := by
    rw [joinSegs_append_sl [st] hds]
  have hname : joinSegs ds ++ sl :: n = joinSegs (ds ++ [n]) := by
    rw [joinSegs_append_sl n hds]
  rw [dsMatch, hpat, hname,
    splitSep_joinSegs (by simp) (by
      intro s hs
      rcases List.mem_append.mp hs with h | h
      · exact sl_not_mem_of_wfName (hwf s h)
      · simp at h
        subst h
        simp [st, sl]),
    splitSep_joinSegs (by simp) (by
      intro s hs
      rcases List.mem_append.mp hs with h | h
      · exact sl_not_mem_of_wfName (hwf s h)
      · simp at h
        subst h
        exact hn),
    matchSegs_literal_prefix ds (fun d hd => st_not_mem_of_wfName (hwf d hd))]
  simp [matchSegs, matchSeg_star_all]

theorem dsMatch_dirstar_self {ds : List Str} (hds : ds ≠ [])
    (hwf : ∀ s ∈ ds, wfName s) :
    dsMatch (joinSegs ds ++ [sl, st]) (joinSegs ds) = false := by
  have hpat : joinSegs ds ++ [sl, st] = joinSegs (ds ++ [[st]]) := by
    rw [joinSegs_append_sl [st] hds]
  rw [dsMatch, hpat,
    splitSep_joinSegs (by simp) (by
      intro s hs
      rcases List.mem_append.mp hs with h | h
      · exact sl_not_mem_of_wfName (hwf s h)
      · simp at h
        subst h
        simp [st, sl]),
    splitSep_joinSegs hds (fun s hs => sl_not_mem_of_wfName (hwf s hs))]
  have : matchSegs (ds ++ [[st]]) (ds ++ []) = matchSegs [[st]] [] :=
    matchSegs_literal_prefix ds (fun d hd => st_not_mem_of_wfName (hwf d hd)) [[st]] []
  rw [List.append_nil] at this
  rw [this]
  simp [matchSegs, st]

theorem dsMatch_dirstar_deeper {ds : List Str} (hds : ds ≠ [])
    (hwf : ∀ s ∈ ds, wfName s) (a b : Str) (ha : wfName a) (hb : wfName b) :
    dsMatch (joinSegs ds ++ [sl, st]) (joinSegs (ds ++ [a, b])) = false := by
  have hpat : joinSegs ds ++ [sl, st] = joinSegs (ds ++ [[st]]) := by
    rw [joinSegs_append_sl [st] hds]
  rw [dsMatch, hpat,
    splitSep_joinSegs (by simp) (by
      intro s hs
      rcases List.mem_append.mp hs with h | h
      · exact sl_not_mem_of_wfName (hwf s h)
      · simp at h
        subst h
        simp [st, sl]),
    splitSep_joinSegs (by simp) (by
      intro s hs
      rcases List.mem_append.mp hs with h | h
      · exact sl_not_mem_of_wfName (hwf s h)
      · simp at h
        rcases h with rfl | rfl
        · exact sl_not_mem_of_wfName ha
        · exact sl_not_mem_of_wfName hb),
    matchSegs_literal_prefix ds (fun d hd => st_not_mem_of_wfName (hwf d hd))]
  simp [matchSegs, matchSeg_star_all]

/-! ## Lemmas: the directory walker -/

/-- Splitting a prefix relation at a path separator: if `d/` is a prefix
of `p/n` where the name `n` contains no separator, then `d` is `p` itself
or `d/` already is a prefix of `p`. -/
theorem prefix_split {d p n : Str} (hn : sl ∉ n)
    (h : (d ++ [sl]) <+: (p ++ sl :: n)) : d = p ∨ (d ++ [sl]) <+: p := by
  have hp2 : (p ++ [sl]) <+: (p ++ sl :: n) := by
    have he : p ++ sl :: n = (p ++ [sl]) ++ n := by simp
    rw [he]
    exact List.prefix_append _ _
  rcases List.prefix_or_prefix_of_prefix h hp2 with hAB | hBA
  · by_cases hlen : d.length + 1 ≤ p.length
    · refine Or.inr (List.prefix_of_prefix_length_le hAB (List.prefix_append p [sl]) ?_)
      simpa using hlen
    · have hle := hAB.length_le
      simp at hle
      have heq : (d ++ [sl]).length = (p ++ [sl]).length := by simp; omega
      have := hAB.eq_of_length heq
      obtain ⟨hd, -⟩ := List.append_inj' this (by simp)
      exact Or.inl hd
  · by_cases hlen : p.length + 1 ≤ d.length
    · have h1 : (p ++ [sl]) <+: d :=
        List.prefix_of_prefix_length_le hBA (List.prefix_append d [sl]) (by simpa using hlen)
      obtain ⟨u, hu⟩ := h1
      exfalso
      rw [← hu] at h
      have he1 : (p ++ [sl] ++ u) ++ [sl] = (p ++ [sl]) ++ (u ++ [sl]) := by simp
      have he2 : p ++ sl :: n = (p ++ [sl]) ++ n := by simp
      rw [he1, he2] at h
      have hun : (u ++ [sl]) <+: n := (List.prefix_append_right_inj (p ++ [sl])).mp h
      exact hn (hun.subset (List.mem_append_right u (List.mem_singleton_self sl)))
    · have hle := hBA.length_le
      simp at hle
      have heq : (p ++ [sl]).length = (d ++ [sl]).length := by simp; omega
      have := hBA.eq_of_length heq
      obtain ⟨hd, -⟩ := List.append_inj' this (by simp)
      exact Or.inl hd.symm

/-- The root `"."` never lies beneath another directory. -/
theorem not_prefix_root (dir : Str) : ¬ (dir ++ [sl]) <+: rootPath := by
  intro h
  have hlen := h.length_le
  simp [rootPath] at hlen
  subst hlen
  obtain ⟨t, ht⟩ := h
  simp [rootPath] at ht
  have : sl = '.' := ht.1
  exact absurd this (by decide)

theorem mem_walkSubs {m : Migrate} {path : Str} {cs : List FTree} {x : Str × List Str} :
    x ∈ walkSubs m path cs ↔ ∃ c ∈ cs, x ∈ walkTree m (joinPath path c.name) c := by
  induction cs with
  | nil => simp [walkSubs]
  | cons c rest ih =>
    rw [walkSubs]
    simp only [List.mem_append, ih, List.mem_cons]
    constructor
    · rintro (h | ⟨c', hc', h⟩)
      · exact ⟨c, Or.inl rfl, h⟩
      · exact ⟨c', Or.inr hc', h⟩
    · rintro ⟨c', rfl | hc', h⟩
      · exact Or.inl h
      · exact Or.inr ⟨c', hc', h⟩

/-- Everything the walker records was neither hard- nor soft-skipped, and
its recorded file entries are the well-formed entries of its node. -/
theorem walkTree_mem_props {m : Migrate} {t : FTree} (hwf : WfTree t) :
    ∀ path x, x ∈ walkTree m path t →
      shouldSkipDir m x.1 = false ∧ shouldSkip m x.1 = false ∧
        ∀ n ∈ x.2, wfName n := by
  induction hwf with
  | node nm files subs hf hn hs ih =>
    intro path x hx
    rw [walkTree] at hx
    by_cases hsd : shouldSkipDir m path = true
    · simp [hsd] at hx
    · replace hsd : shouldSkipDir m path = false := eq_false_of_ne_true hsd
      rw [hsd] at hx
      simp only [Bool.false_eq_true, if_false, List.mem_append] at hx
      rcases hx with h1 | h2
      · by_cases hss : shouldSkip m path = true
        · simp [hss] at h1
        · replace hss : shouldSkip m path = false := eq_false_of_ne_true hss
          rw [hss] at h1
          simp at h1
          subst h1
          exact ⟨hsd, hss, hf⟩
      · obtain ⟨c, hc, hx'⟩ := mem_walkSubs.mp h2
        exact ih c hc (joinPath path c.name) x hx'

/-- Pruning: once a directory is hard-skipped, nothing at it or beneath it
is ever recorded, from any start outside its subtree. -/
theorem walkTree_pruned {m : Migrate} {dir : Str}
    (hskip : shouldSkipDir m dir = true) {t : FTree} (hwf : WfTree t) :
    ∀ path, ¬ (dir ++ [sl]) <+: path →
      ∀ x ∈ walkTree m path t, ¬ (x.1 = dir ∨ (dir ++ [sl]) <+: x.1) := by
  induction hwf with
  | node nm files subs hf hn hs ih =>
    intro path hpath x hx
    rw [walkTree] at hx
    by_cases hsd : shouldSkipDir m path = true
    · simp [hsd] at hx
    · replace hsd : shouldSkipDir m path = false := eq_false_of_ne_true hsd
      rw [hsd] at hx
      simp only [Bool.false_eq_true, if_false, List.mem_append] at hx
      rcases hx with h1 | h2
      · have hx1 : x.1 = path := by
          by_cases hss : shouldSkip m path = true
          · simp [hss] at h1
          · replace hss : shouldSkip m path = false := eq_false_of_ne_true hss
            rw [hss] at h1
            simp at h1
            rw [h1]
        rw [hx1]
        rintro (rfl | hpre)
        · rw [hskip] at hsd
          cases hsd
        · exact hpath hpre
      · obtain ⟨c, hc, hx'⟩ := mem_walkSubs.mp h2
        refine ih c hc (joinPath path c.name) ?_ x hx'
        intro hpre
        by_cases hroot : path = ['.']
        · rw [joinPath, if_pos hroot] at hpre
          exact (sl_not_mem_of_wfName (hn c hc))
            (hpre.subset (List.mem_append_right dir (List.mem_singleton_self sl)))
        · rw [joinPath, if_neg hroot] at hpre
          rcases prefix_split (sl_not_mem_of_wfName (hn c hc)) hpre with rfl | hpre'
          · rw [hskip] at hsd
            cases hsd
          · exact hpath hpre'

/-- Completeness: a directory present in the tree is recorded by the walk
whenever no directory on its chain is hard-skipped and it is not itself
soft-skipped. -/
theorem walkTree_complete {m : Migrate} {t : FTree} {segs fs : List Str}
    (hin : InTree t segs fs) :
    ∀ path, (∀ k, k ≤ segs.length →
        shouldSkipDir m (joinAll path (segs.take k)) = false) →
      shouldSkip m (joinAll path segs) = false →
      (joinAll path segs, fs) ∈ walkTree m path t := by
  induction hin with
  | here t =>
    intro path hsd hss
    have h0 := hsd 0 (by simp)
    simp only [List.take_zero, joinAll, List.foldl_nil] at h0 hss ⊢
    cases t with
    | node nm files subs =>
      rw [walkTree, h0]
      simp only [Bool.false_eq_true, if_false]
      rw [hss]
      simp [FTree.files]
  | step hc hin ih =>
    intro path hsd hss
    have h0 := hsd 0 (by simp)
    simp only [List.take_zero, joinAll, List.foldl_nil] at h0
    rename_i t c segs fs
    cases t with
    | node nm files subs =>
      rw [walkTree, h0]
      simp only [Bool.false_eq_true, if_false]
      refine List.mem_append_right _ ?_
      rw [mem_walkSubs]
      refine ⟨c, hc, ?_⟩
      have hjoin : joinAll path (c.name :: segs) =
          joinAll (joinPath path c.name) segs := rfl
      rw [hjoin]
      refine ih (joinPath path c.name) ?_ ?_
      · intro k hk
        have := hsd (k + 1) (by simp; omega)
        simpa [List.take_succ_cons, joinAll_cons] using this
      · have := hss
        rw [hjoin] at this
        exact this

theorem mem_sortDirPairs {m : Migrate} {ps : List (Str × List Str)}
    {x : Str × List Str} : x ∈ sortDirPairs m ps ↔ x ∈ ps := by
  unfold sortDirPairs
  split <;> exact List.mem_mergeSort

theorem mem_migrationSets {m : Migrate} {t : FTree} {mu : Muzo} :
    mu ∈ migrationSets m t ↔
      ∃ p ∈ walkTree m rootPath t, mu = ⟨p.1, migFiles m p.1 p.2⟩ := by
  unfold migrationSets
  simp only [List.mem_map, mem_sortDirPairs]
  constructor
  · rintro ⟨p, hp, rfl⟩
    exact ⟨p, hp, rfl⟩
  · rintro ⟨p, hp, rfl⟩
    exact ⟨p, hp, rfl⟩

/-! ## The claims -/

/-- C1 (code bug, evaluated at the failing input): `Migrate.Migrate`
(muz.go) registers `defer driver.End(ctx, err)`, whose `err` argument Go
evaluates when the `defer` statement runs — while the named return is
still `nil`.  In a run whose `Start` succeeds and whose single `Process`
call fails with error `5`, `Migrate` returns error `5` but the one and
only `End` call receives `nil`, not the triggering error as the claim
states. -/
theorem C1_end_called_with_nil_on_failure :
    migrateModel
      (⟨fun s => (none, s), fun s _ => (some 5, s), fun s _ => (none, s)⟩ :
        DriverSpec Unit)
      none () [Except.ok ⟨str "m", [⟨str "1_a.sql", 1⟩]⟩] =
      (some 5,
        [DrvEvent.start, DrvEvent.process (str "m"), DrvEvent.endCall none]) := rfl

/-- C3 (code bug, evaluated at the failing input): on a fully successful
run, the deferred `End` call does receive `nil`, but its return value is
discarded by `defer` — with a driver whose `End` reports commit error `7`,
`Migrate` still returns `nil` instead of `End`'s result as the claim
states. -/
theorem C3_end_result_discarded :
    migrateModel
      (⟨fun s => (none, s), fun s _ => (none, s), fun _ _ => (some 7, ())⟩ :
        DriverSpec Unit)
      none () [] = (none, [DrvEvent.start, DrvEvent.endCall none]) ∧
    ((⟨fun s => (none, s), fun s _ => (none, s), fun _ _ => (some 7, ())⟩ :
        DriverSpec Unit).endFn () none).1 = some 7 :=
  ⟨rfl, rfl⟩

/-- C4 (code bug, evaluated at the failing input): the `Driver`-based
`Migrate.Migrate` (muz.go) never consults `ctx.Err()` — with the context
already cancelled (error `99`) before the run starts, both migration sets
are still handed to `Process`, contradicting the claim that cancellation
is checked between MigrationSets and stops all not-yet-processed sets.
(The legacy callback-based `Migrate` in the repository does perform this
check; the current orchestrator dropped it.) -/
theorem C4_cancellation_never_checked :
    migrateModel
      (⟨fun s => (none, s), fun s _ => (none, s), fun s _ => (none, s)⟩ :
        DriverSpec Unit)
      (some 99) ()
      [Except.ok ⟨str "a", [⟨str "1_a.sql", 1⟩]⟩,
        Except.ok ⟨str "b", [⟨str "1_b.sql", 1⟩]⟩] =
      (none,
        [DrvEvent.start, DrvEvent.process (str "a"), DrvEvent.process (str "b"),
          DrvEvent.endCall none]) := rfl

/-- C9 (counterexample): the claim that a digit-leading name's extracted
version always equals the value of its maximal leading digit run fails:
`"99999999999999999999_x"` begins with twenty digits whose value exceeds
the 64-bit `int` range, `strconv.Atoi` fails, and `extractLeadingNumber`
returns the sentinel `0` instead. -/
theorem C9_counterexample :
    (str "99999999999999999999_x").takeWhile isDigitC ≠ [] ∧
    (extractLeadingNumber (str "99999999999999999999_x")).1 ≠
      digitsVal ((str "99999999999999999999_x").takeWhile isDigitC) := by
  constructor
  · decide
  · decide

/-- C9 (amended): for a file name whose maximal leading digit run is
nonempty and whose value fits the 64-bit `int` range, the extracted
version equals the integer value of that run (so leading zeros do not
change it: `"001_x"` and `"1_x"` both yield 1); a name with zero leading
digits yields the sentinel version 0. -/
theorem C9_version_extraction :
    (∀ name : Str, name.takeWhile isDigitC ≠ [] →
        digitsVal (name.takeWhile isDigitC) ≤ maxGoInt →
        (extractLeadingNumber name).1 = digitsVal (name.takeWhile isDigitC)) ∧
    (∀ name : Str, name.takeWhile isDigitC = [] →
        (extractLeadingNumber name).1 = 0) ∧
    (extractLeadingNumber (str "001_x")).1 = 1 ∧
    (extractLeadingNumber (str "1_x")).1 = 1 := by
  refine ⟨?_, ?_, by decide, by decide⟩
  · intro name h1 h2
    simp [extractLeadingNumber, atoi, h1, h2]
  · intro name h1
    simp [extractLeadingNumber, h1]

/-- C9 witness: the amended theorem applied at the concrete name
`"007_x"`. -/
theorem C9_witness :
    (str "007_x").takeWhile isDigitC ≠ [] ∧
    digitsVal ((str "007_x").takeWhile isDigitC) ≤ maxGoInt ∧
    (extractLeadingNumber (str "007_x")).1 =
      digitsVal ((str "007_x").takeWhile isDigitC) :=
  ⟨by decide, by decide,
    C9_version_extraction.1 (str "007_x") (by decide) (by decide)⟩

/-- C2: processing the same sequence of migration sets a second time,
against the record table left by a fully successful first run, applies
and records nothing — every file's version is at most the recorded
high-water mark of its directory, the record table is unchanged, and
(since applied versions strictly increase per directory) the first run
applied each file at most once. -/
theorem C2_second_run_idempotent (recs0 : List Rec) (sets : List Muzo) :
    runAll (runAll recs0 sets).1 sets = ((runAll recs0 sets).1, []) ∧
    (∀ mu ∈ sets, ∀ f ∈ mu.Files,
      f.Version ≤ maxVersion (runAll recs0 sets).1 mu.Dir) ∧
    (runAll recs0 sets).2.Pairwise
      (fun p q => p.1 = q.1 → p.2.Version < q.2.Version) :=
  ⟨runAll_noop sets _ (runAll_bound sets recs0),
    runAll_bound sets recs0, runAll_applied_pairwise sets recs0⟩

/-- C2 witness: the theorem applied to one concrete set processed twice
from an empty table. -/
theorem C2_witness :
    runAll
      (runAll [] [⟨str "m", [⟨str "1_a.sql", 1⟩, ⟨str "2_b.sql", 2⟩]⟩]).1
      [⟨str "m", [⟨str "1_a.sql", 1⟩, ⟨str "2_b.sql", 2⟩]⟩] =
      ((runAll [] [⟨str "m", [⟨str "1_a.sql", 1⟩, ⟨str "2_b.sql", 2⟩]⟩]).1, []) :=
  (C2_second_run_idempotent [] [⟨str "m", [⟨str "1_a.sql", 1⟩, ⟨str "2_b.sql", 2⟩]⟩]).1

/-- C10: within one migration set whose files have non-decreasing
versions (as discovery yields them), when position `i` holds the first
file of a version that exceeds the directory's recorded high-water mark
and position `j > i` holds another file of the same version, `Process`
applies the file at `i` and silently skips the one at `j` — by then the
in-memory high-water mark already equals its version.  In the
`(version, filename)`-sorted list the first file of a version group is
the lexically first. -/
theorem C10_equal_version_applied_once
    (recs : List Rec) (dir : Str) (files : List FileInfo)
    (i j : Nat) (hi : i < files.length) (hj : j < files.length) (hij : i < j)
    (hsorted : files.Pairwise fun a b => a.Version ≤ b.Version)
    (hnodup : (files.map FileInfo.Path).Nodup)
    (heq : (files.get ⟨i, hi⟩).Version = (files.get ⟨j, hj⟩).Version)
    (hfirst : ∀ k (hk : k < i),
      (files.get ⟨k, Nat.lt_trans hk hi⟩).Version ≠ (files.get ⟨i, hi⟩).Version)
    (hgt : maxVersion recs dir < (files.get ⟨i, hi⟩).Version) :
    files.get ⟨i, hi⟩ ∈ (processMuzo recs ⟨dir, files⟩).2 ∧
    files.get ⟨j, hj⟩ ∉ (processMuzo recs ⟨dir, files⟩).2 := by
  simp only [List.get_eq_getElem] at heq hfirst hgt ⊢
  have happlied : (processMuzo recs ⟨dir, files⟩).2 =
      (processFiles dir recs (maxVersion recs dir) files).2.2 := rfl
  rw [happlied]
  constructor
  · -- the first file of the group is applied
    have hPA := processFiles_append dir (files.take i) (files.drop i)
      recs (maxVersion recs dir)
    rw [List.take_append_drop] at hPA
    have hAlt : (processFiles dir recs (maxVersion recs dir) (files.take i)).2.1 <
        files[i].Version := by
      apply processFiles_hwm_lt dir (files.take i) _ recs _ hgt
      intro x hx
      obtain ⟨k, hk, hval⟩ := List.mem_iff_getElem.mp hx
      have hki : k < i := by
        rw [List.length_take] at hk
        omega
      have hkfiles : k < files.length := by omega
      have hkx : x = files[k] := by rw [← hval, List.getElem_take]
      subst hkx
      have hle : files[k].Version ≤ files[i].Version :=
        List.pairwise_iff_getElem.mp hsorted k i hkfiles hi hki
      have hne := hfirst k hki
      omega
    rw [hPA]
    dsimp only
    refine List.mem_append_right _ ?_
    have hdropeq : files.drop i = files[i] :: files.drop (i + 1) :=
      (List.getElem_cons_drop files i hi).symm
    rw [hdropeq]
    simp only [processFiles, if_neg (not_le.mpr hAlt)]
    exact List.mem_cons_self _ _
  · -- every later file of the group is skipped
    intro hmem
    have hPA := processFiles_append dir (files.take (i + 1)) (files.drop (i + 1))
      recs (maxVersion recs dir)
    rw [List.take_append_drop] at hPA
    rw [hPA] at hmem
    dsimp only at hmem
    have hB1 : files[i].Version ≤
        (processFiles dir recs (maxVersion recs dir) (files.take (i + 1))).2.1 := by
      apply processFiles_hwm_ge_mem
      refine List.mem_iff_getElem.mpr ⟨i, ?_, ?_⟩
      · rw [List.length_take]
        omega
      · exact List.getElem_take files
    rcases List.mem_append.mp hmem with hB | hE
    · have hsub := processFiles_applied_sublist dir (files.take (i + 1))
        recs (maxVersion recs dir)
      have hjmem : files[j] ∈ files.take (i + 1) := hsub.subset hB
      obtain ⟨k, hk, hval⟩ := List.mem_iff_getElem.mp hjmem
      have hki : k < i + 1 := by
        rw [List.length_take] at hk
        omega
      have hkfiles : k < files.length := by omega
      have hkj : files[k] = files[j] := by rw [← hval, List.getElem_take]
      have hkm : k < (files.map FileInfo.Path).length := by simpa using hkfiles
      have hjm : j < (files.map FileInfo.Path).length := by simpa using hj
      have hpath : (files.map FileInfo.Path)[k] = (files.map FileInfo.Path)[j] := by
        simp only [List.getElem_map]
        rw [hkj]
      have : k = j := (hnodup.getElem_inj_iff).mp hpath
      omega
    · have hgtE := processFiles_applied_gt dir (files.drop (i + 1)) _ _ _ hE
      rw [← heq] at hgtE
      omega

/-- C10 witness: the theorem applied to the concrete set
`[001_alpha.sql, 001_beta.sql]` over an empty record table: the lexically
first of the two version-1 files is applied, the second is skipped. -/
theorem C10_witness :
    [FileInfo.mk (str "001_alpha.sql") 1, FileInfo.mk (str "001_beta.sql") 1].get
        ⟨0, by decide⟩ ∈
      (processMuzo []
        ⟨str "m", [⟨str "001_alpha.sql", 1⟩, ⟨str "001_beta.sql", 1⟩]⟩).2 ∧
    [FileInfo.mk (str "001_alpha.sql") 1, FileInfo.mk (str "001_beta.sql") 1].get
        ⟨1, by decide⟩ ∉
      (processMuzo []
        ⟨str "m", [⟨str "001_alpha.sql", 1⟩, ⟨str "001_beta.sql", 1⟩]⟩).2 :=
  C10_equal_version_applied_once [] (str "m")
    [⟨str "001_alpha.sql", 1⟩, ⟨str "001_beta.sql", 1⟩]
    0 1 (by decide) (by decide) (by decide)
    (by decide)
    (by decide)
    (by decide)
    (fun k hk => absurd hk (by omega))
    (by decide)

/-- C8: every yielded MigrationSet's file list is sorted ascending by the
pair `(version, filename)`: a smaller version precedes a larger one, and
files of equal version are ordered by ascending lexical comparison of
their full filenames. -/
theorem C8_files_sorted (m : Migrate) (t : FTree) (hwf : WfTree t) :
    ∀ mu ∈ migrationSets m t, mu.Files.Pairwise fileOrdered := by
  intro mu hmu
  obtain ⟨p, hp, rfl⟩ := mem_migrationSets.mp hmu
  have hprops := walkTree_mem_props hwf rootPath p hp
  exact migFiles_pairwise m p.1 p.2 fun n hn =>
    sl_not_mem_of_wfName (hprops.2.2 n hn)

/-- C8 witness: the theorem applied to a concrete tree holding
`001_b.sql`, `001_a.sql` and `2_c.sql` in one directory. -/
theorem C8_witness :
    WfTree (FTree.node []
      [] [FTree.node (str "m")
        [str "001_b.sql", str "001_a.sql", str "2_c.sql"] []]) ∧
    ∀ mu ∈ migrationSets ⟨[], [], []⟩
      (FTree.node [] [] [FTree.node (str "m")
        [str "001_b.sql", str "001_a.sql", str "2_c.sql"] []]),
      mu.Files.Pairwise fileOrdered := by
  have hw : WfTree (FTree.node [] [] [FTree.node (str "m")
      [str "001_b.sql", str "001_a.sql", str "2_c.sql"] []]) := by
    refine WfTree.node _ _ _ (by simp) ?_ ?_
    · intro c hc
      simp at hc
      subst hc
      decide
    · intro c hc
      simp at hc
      subst hc
      exact WfTree.node _ _ _ (by decide) (by simp) (by simp)
  exact ⟨hw, C8_files_sorted _ _ hw⟩

/-- C5: a skip pattern `<dir>/**` — or one exactly equal to `<dir>` after
stripping an optional leading `/` — excludes `<dir>` and every descendant
from discovery: no MigrationSet is yielded at `<dir>` or beneath it, and
the walker does not descend into the subtree (a walk started at `<dir>`
records nothing, whatever the subtree holds). -/
theorem C5_subtree_skip (m : Migrate) (t : FTree) (pat dir : Str)
    (hwf : WfTree t) (hpat : pat ∈ m.Skip)
    (hform : trimPrefixS pat [sl] = dir ++ [sl, st, st] ∨
      trimPrefixS pat [sl] = dir) :
    (∀ mu ∈ migrationSets m t, ¬ (mu.Dir = dir ∨ (dir ++ [sl]) <+: mu.Dir)) ∧
    (∀ sub : FTree, walkTree m dir sub = []) := by
  have hskip : shouldSkipDir m dir = true := by
    rw [shouldSkipDir, List.any_eq_true]
    refine ⟨pat, hpat, ?_⟩
    dsimp only
    rcases hform with hf | hf
    · rw [hf]
      have hsuf : hasSuffixS (dir ++ [sl, st, st]) [sl, st, st] = true := by
        rw [hasSuffixS]
        exact List.isSuffixOf_iff_suffix.mpr (List.suffix_append dir [sl, st, st])
      have htrim : trimSuffixS (dir ++ [sl, st, st]) [sl, st, st] = dir := by
        rw [trimSuffixS, if_pos (List.isSuffixOf_iff_suffix.mpr
          (List.suffix_append dir [sl, st, st]))]
        have hlen : (dir ++ [sl, st, st]).length - ([sl, st, st] : Str).length =
            dir.length := by simp
        rw [hlen]
        exact List.take_left dir [sl, st, st]
      rw [hsuf, htrim]
      simp
    · rw [hf]
      simp
  refine ⟨?_, ?_⟩
  · intro mu hmu
    obtain ⟨p, hp, rfl⟩ := mem_migrationSets.mp hmu
    exact walkTree_pruned hskip hwf rootPath (not_prefix_root dir) p hp
  · intro sub
    cases sub with
    | node nm fs subs =>
      rw [walkTree, hskip]
      simp

/-- C5 witness: the theorem applied to a concrete tree with skip pattern
`"/skipme/**"`. -/
theorem C5_witness :
    WfTree (FTree.node [] []
      [FTree.node (str "skipme") [str "001_s.sql"] [FTree.node (str "sub") [] []],
        FTree.node (str "keep") [] []]) ∧
    str "/skipme/**" ∈ (⟨[], [str "/skipme/**"], []⟩ : Migrate).Skip ∧
    trimPrefixS (str "/skipme/**") [sl] = str "skipme" ++ [sl, st, st] ∧
    ∀ mu ∈ migrationSets ⟨[], [str "/skipme/**"], []⟩
      (FTree.node [] []
        [FTree.node (str "skipme") [str "001_s.sql"] [FTree.node (str "sub") [] []],
          FTree.node (str "keep") [] []]),
      ¬ (mu.Dir = str "skipme" ∨ (str "skipme" ++ [sl]) <+: mu.Dir) := by
  have hw : WfTree (FTree.node [] []
      [FTree.node (str "skipme") [str "001_s.sql"] [FTree.node (str "sub") [] []],
        FTree.node (str "keep") [] []]) := by
    refine WfTree.node _ _ _ (by simp) ?_ ?_
    · intro c hc
      simp at hc
      rcases hc with rfl | rfl <;> decide
    · intro c hc
      simp at hc
      rcases hc with rfl | rfl
      · refine WfTree.node _ _ _ (by decide) ?_ ?_
        · intro c hc
          simp at hc
          subst hc
          decide
        · intro c hc
          simp at hc
          subst hc
          exact WfTree.node _ _ _ (by simp) (by simp) (by simp)
      · exact WfTree.node _ _ _ (by simp) (by simp) (by simp)
  refine ⟨hw, by simp, by decide, ?_⟩
  exact (C5_subtree_skip _ _ (str "/skipme/**") (str "skipme") hw (by simp)
    (Or.inl (by decide))).1

/-- With a single skip pattern `<dir>/*`, no star-free path is ever
hard-skipped: the pattern equals no such path, and it does not end in
`/**`. -/
theorem shouldSkipDir_starfree (m : Migrate) (ds : List Str) (hds : ds ≠ [])
    (hwf : ∀ s ∈ ds, wfName s)
    (hcfg : m.Skip = [joinSegs ds ++ [sl, st]]) :
    ∀ p : Str, st ∉ p → shouldSkipDir m p = false := by
  intro p hp
  rw [shouldSkipDir, hcfg]
  simp only [List.any_cons, List.any_nil, Bool.or_false]
  rw [trimPrefixS_joinSegs [sl, st] hds hwf]
  have h1 : joinSegs ds ++ [sl, st] ≠ p := by
    intro he
    exact hp (he ▸ List.mem_append_right _ (by simp))
  have h2 : hasSuffixS (joinSegs ds ++ [sl, st]) [sl, st, st] = false := by
    rw [hasSuffixS]
    by_contra hc
    rw [Bool.not_eq_false] at hc
    obtain ⟨u, hu⟩ := List.isSuffixOf_iff_suffix.mp hc
    have hrev := congrArg List.reverse hu
    simp [sl, st] at hrev
  rw [h2]
  simp [h1]

/-- With a single skip pattern `<dir>/*`, the full path of a direct child
of `<dir>` is soft-skipped. -/
theorem shouldSkip_child (m : Migrate) (ds : List Str) (hds : ds ≠ [])
    (hwf : ∀ s ∈ ds, wfName s)
    (hcfg : m.Skip = [joinSegs ds ++ [sl, st]])
    (n : Str) (hn : sl ∉ n) :
    shouldSkip m (joinSegs ds ++ sl :: n) = true := by
  rw [shouldSkip, hcfg]
  simp only [List.any_cons, List.any_nil, Bool.or_false]
  rw [trimPrefixS_joinSegs [sl, st] hds hwf]
  exact dsMatch_dirstar_child hds hwf n hn

/-- C6: a skip pattern `<dir>/*` excludes exactly the direct children of
`<dir>`: no MigrationSet is yielded for a direct child directory, and
every direct child file is dropped from `<dir>`'s own file list — while
`<dir>` itself, when present, is still yielded, and directories two
levels beneath it are still visited and yielded. -/
theorem C6_single_level_skip (m : Migrate) (t : FTree) (ds : List Str)
    (hwf : WfTree t) (hds : ds ≠ []) (hwfds : ∀ s ∈ ds, wfName s)
    (hcfg : m.Skip = [joinSegs ds ++ [sl, st]]) :
    (∀ mu ∈ migrationSets m t, ∀ n : Str, sl ∉ n →
        mu.Dir ≠ joinSegs ds ++ sl :: n) ∧
    (∀ names : List Str, (∀ n ∈ names, wfName n) →
        migFiles m (joinSegs ds) names = []) ∧
    (∀ fs, InTree t ds fs →
        (⟨joinSegs ds, migFiles m (joinSegs ds) fs⟩ : Muzo) ∈ migrationSets m t) ∧
    (∀ a b fs, wfName a → wfName b → InTree t (ds ++ [a, b]) fs →
        (⟨joinSegs (ds ++ [a, b]), migFiles m (joinSegs (ds ++ [a, b])) fs⟩ : Muzo) ∈
          migrationSets m t) := by
  have hchain : ∀ (segs : List Str), (∀ s ∈ segs, wfName s) →
      ∀ k, k ≤ segs.length →
        shouldSkipDir m (joinAll rootPath (segs.take k)) = false := by
    intro segs hsegs k _
    apply shouldSkipDir_starfree m ds hds hwfds hcfg
    match k with
    | 0 => simp [joinAll, rootPath, st]
    | k' + 1 =>
      by_cases hempty : segs = []
      · subst hempty
        simp [joinAll, rootPath, st]
      · have htk : segs.take (k' + 1) ≠ [] := by
          intro h
          rw [List.take_eq_nil_iff] at h
          rcases h with h | h
          · cases h
          · exact hempty h
        have hwtk : ∀ s ∈ segs.take (k' + 1), wfName s := fun s hs =>
          hsegs s ((List.take_sublist _ _).subset hs)
        rw [joinAll_root htk hwtk]
        exact st_not_mem_joinSegs fun s hs => st_not_mem_of_wfName (hwtk s hs)
  refine ⟨?_, ?_, ?_, ?_⟩
  · -- direct child directories are never yielded
    intro mu hmu n hn he
    obtain ⟨p, hp, rfl⟩ := mem_migrationSets.mp hmu
    have hprops := walkTree_mem_props hwf rootPath p hp
    have hskip := shouldSkip_child m ds hds hwfds hcfg n hn
    have : p.1 = joinSegs ds ++ sl :: n := he
    rw [this, hskip] at hprops
    cases hprops.2.1
  · -- direct child files are dropped from <dir>'s file list
    intro names hna
    rw [migFiles]
    have hnone : names.filterMap (includeFile m (joinSegs ds)) = [] := by
      rw [List.filterMap_eq_nil_iff]
      intro n hn
      have hjp : joinPath (joinSegs ds) n = joinSegs ds ++ sl :: n := by
        rw [joinPath, if_neg]
        simpa [rootPath] using joinSegs_ne_root hds hwfds
      rw [includeFile]
      simp only [hjp,
        shouldSkip_child m ds hds hwfds hcfg n (sl_not_mem_of_wfName (hna n hn))]
      simp
    rw [hnone]
    simp [sortMigrationFiles]
  · -- <dir> itself is still yielded
    intro fs hin
    have hmem := walkTree_complete hin rootPath (hchain ds hwfds) (by
      rw [joinAll_root hds hwfds, shouldSkip, hcfg]
      simp only [List.any_cons, List.any_nil, Bool.or_false]
      rw [trimPrefixS_joinSegs [sl, st] hds hwfds]
      exact dsMatch_dirstar_self hds hwfds)
    rw [joinAll_root hds hwfds] at hmem
    exact mem_migrationSets.mpr ⟨(joinSegs ds, fs), hmem, rfl⟩
  · -- grandchildren are still yielded
    intro a b fs ha hb hin
    have hwfall : ∀ s ∈ ds ++ [a, b], wfName s := by
      intro s hs
      rcases List.mem_append.mp hs with h | h
      · exact hwfds s h
      · simp at h
        rcases h with rfl | rfl
        · exact ha
        · exact hb
    have hne : ds ++ [a, b] ≠ [] := by simp
    have hmem := walkTree_complete hin rootPath (hchain (ds ++ [a, b]) hwfall) (by
      rw [joinAll_root hne hwfall, shouldSkip, hcfg]
      simp only [List.any_cons, List.any_nil, Bool.or_false]
      rw [trimPrefixS_joinSegs [sl, st] hds hwfds]
      exact dsMatch_dirstar_deeper hds hwfds a b ha hb)
    rw [joinAll_root hne hwfall] at hmem
    exact mem_migrationSets.mpr ⟨(joinSegs (ds ++ [a, b]), fs), hmem, rfl⟩

/-- C6 witness: the theorem applied to a concrete tree
`par/{001_p.sql, kid/{001_k.sql, gk/}}` with skip pattern `"par/*"`:
`kid` is excluded, `par`'s file is dropped, `par` and `par/kid/gk` are
still yielded. -/
theorem C6_witness :
    (⟨joinSegs [str "par"], migFiles ⟨[], [str "par/*"], []⟩
        (joinSegs [str "par"]) [str "001_p.sql"]⟩ : Muzo) ∈
      migrationSets ⟨[], [str "par/*"], []⟩
        (FTree.node [] []
          [FTree.node (str "par") [str "001_p.sql"]
            [FTree.node (str "kid") [str "001_k.sql"]
              [FTree.node (str "gk") [str "001_g.sql"] []]]]) := by
  have hw : WfTree (FTree.node [] []
      [FTree.node (str "par") [str "001_p.sql"]
        [FTree.node (str "kid") [str "001_k.sql"]
          [FTree.node (str "gk") [str "001_g.sql"] []]]]) := by
    refine WfTree.node _ _ _ (by simp) ?_ ?_
    · intro c hc
      simp at hc
      subst hc
      decide
    · intro c hc
      simp at hc
      subst hc
      refine WfTree.node _ _ _ (by decide) ?_ ?_
      · intro c hc
        simp at hc
        subst hc
        decide
      · intro c hc
        simp at hc
        subst hc
        refine WfTree.node _ _ _ (by decide) ?_ ?_
        · intro c hc
          simp at hc
          subst hc
          decide
        · intro c hc
          simp at hc
          subst hc
          exact WfTree.node _ _ _ (by decide) (by simp) (by simp)
  exact (C6_single_level_skip ⟨[], [str "par/*"], []⟩ _ [str "par"] hw
    (by simp) (by intro s hs; simp at hs; subst hs; decide) (by decide)).2.2.1
    [str "001_p.sql"]
    (InTree.step (c := FTree.node (str "par") [str "001_p.sql"]
        [FTree.node (str "kid") [str "001_k.sql"]
          [FTree.node (str "gk") [str "001_g.sql"] []]])
      (List.mem_singleton_self _) (InTree.here _))

theorem cmpLeB_trans (a b c : Str)
    (h1 : decide (cmpStr a b ≤ 0) = true) (h2 : decide (cmpStr b c ≤ 0) = true) :
    decide (cmpStr a c ≤ 0) = true :=
  decide_eq_true (cmpStr_trans (of_decide_eq_true h1) (of_decide_eq_true h2))

theorem cmpLeB_total (a b : Str) :
    (decide (cmpStr a b ≤ 0) || decide (cmpStr b a ≤ 0)) = true := by
  rcases cmpStr_total a b with h | h <;> simp [h]

theorem dirLeB_trans (order : List Str) (a b c : Str)
    (h1 : decide (dirCmp order a b ≤ 0) = true)
    (h2 : decide (dirCmp order b c ≤ 0) = true) :
    decide (dirCmp order a c ≤ 0) = true :=
  decide_eq_true (dirCmp_trans order (of_decide_eq_true h1) (of_decide_eq_true h2))

theorem dirLeB_total (order : List Str) (a b : Str) :
    (decide (dirCmp order a b ≤ 0) || decide (dirCmp order b a ≤ 0)) = true := by
  rcases dirCmp_total order a b with h | h <;> simp [h]

theorem dirCmp_some_some {order : List Str} {a b : Str} {i j : Nat}
    (ha : lookupOrder order a = some i) (hb : lookupOrder order b = some j) :
    dirCmp order a b = (i : Int) - (j : Int) := by
  unfold dirCmp
  rw [ha, hb]

theorem dirCmp_some_none {order : List Str} {a b : Str} {i : Nat}
    (ha : lookupOrder order a = some i) (hb : lookupOrder order b = none) :
    dirCmp order a b = -1 := by
  unfold dirCmp
  rw [ha, hb]

theorem dirCmp_none_none {order : List Str} {a b : Str}
    (ha : lookupOrder order a = none) (hb : lookupOrder order b = none) :
    dirCmp order a b = cmpStr a b := by
  unfold dirCmp
  rw [ha, hb]

/-- C7: with a non-empty `Order`, `sortDirs` emits the directories named
in `Order` first, in exactly the `Order`-given sequence (restricted to
those present), followed by all remaining directories in ascending
lexical order; and no directory is ever excluded by sorting — absence
from `Order` only lowers its position. -/
theorem C7_priority_order (m : Migrate) (dirs : List Str)
    (hord : m.Order ≠ []) (hnd : dirs.Nodup)
    (hondup : (m.Order.map (trimPrefixS · [sl])).Nodup) :
    sortDirs m dirs =
      (m.Order.map (trimPrefixS · [sl])).filter (· ∈ dirs) ++
        (dirs.filter fun d => lookupOrder m.Order d = none).mergeSort
          (fun a b => cmpStr a b ≤ 0) ∧
    ∀ d ∈ dirs, d ∈ sortDirs m dirs := by
  have hmem : ∀ d ∈ dirs, d ∈ sortDirs m dirs := by
    intro d hd
    unfold sortDirs
    split <;> exact List.mem_mergeSort.mpr hd
  refine ⟨?_, hmem⟩
  have hpart1nd : ((m.Order.map (trimPrefixS · [sl])).filter (· ∈ dirs)).Nodup :=
    hondup.filter _
  have hpart2nd : ((dirs.filter fun d => lookupOrder m.Order d = none).mergeSort
      (fun a b => cmpStr a b ≤ 0)).Nodup :=
    ((List.mergeSort_perm _ _).nodup_iff).mpr (hnd.filter _)
  have hdisj : List.Disjoint
      ((m.Order.map (trimPrefixS · [sl])).filter (· ∈ dirs))
      ((dirs.filter fun d => lookupOrder m.Order d = none).mergeSort
        (fun a b => cmpStr a b ≤ 0)) := by
    intro a ha1 ha2
    have h1 : a ∈ m.Order.map (trimPrefixS · [sl]) :=
      (List.mem_filter.mp ha1).1
    have h2 : lookupOrder m.Order a = none :=
      of_decide_eq_true (List.mem_filter.mp (List.mem_mergeSort.mp ha2)).2
    exact (lookupOrder_none_iff _ _).mp h2 h1
  have hperm : (sortDirs m dirs).Perm
      ((m.Order.map (trimPrefixS · [sl])).filter (· ∈ dirs) ++
        (dirs.filter fun d => lookupOrder m.Order d = none).mergeSort
          (fun a b => cmpStr a b ≤ 0)) := by
    have h1 : (sortDirs m dirs).Perm dirs := by
      unfold sortDirs
      rw [if_neg hord]
      exact List.mergeSort_perm dirs _
    refine h1.trans ?_
    rw [List.perm_ext_iff_of_nodup hnd (hpart1nd.append hpart2nd hdisj)]
    intro a
    constructor
    · intro ha
      rcases hla : lookupOrder m.Order a with _ | i
      · exact List.mem_append_right _
          (List.mem_mergeSort.mpr (List.mem_filter.mpr ⟨ha, by simp [hla]⟩))
      · refine List.mem_append_left _ (List.mem_filter.mpr ⟨?_, by simp [ha]⟩)
        by_contra hnot
        rw [(lookupOrder_none_iff m.Order a).mpr hnot] at hla
        cases hla
    · intro ha
      rcases List.mem_append.mp ha with h1 | h2
      · exact of_decide_eq_true (List.mem_filter.mp h1).2
      · exact (List.mem_filter.mp (List.mem_mergeSort.mp h2)).1
  have hsorted_lhs : (sortDirs m dirs).Pairwise
      fun a b => dirCmp m.Order a b ≤ 0 := by
    unfold sortDirs
    rw [if_neg hord]
    exact (@List.sorted_mergeSort Str (fun a b => decide (dirCmp m.Order a b ≤ 0))
      (dirLeB_trans m.Order) (dirLeB_total m.Order) dirs).imp of_decide_eq_true
  have hsorted_rhs :
      ((m.Order.map (trimPrefixS · [sl])).filter (· ∈ dirs) ++
        (dirs.filter fun d => lookupOrder m.Order d = none).mergeSort
          (fun a b => cmpStr a b ≤ 0)).Pairwise
      fun a b => dirCmp m.Order a b ≤ 0 := by
    rw [List.pairwise_append]
    refine ⟨?_, ?_, ?_⟩
    · refine List.Pairwise.filter _ ?_
      rw [List.pairwise_iff_getElem]
      intro k l hk hl hkl
      have hkO : k < m.Order.length := by simpa using hk
      have hlO : l < m.Order.length := by simpa using hl
      have hgk : (m.Order.map (trimPrefixS · [sl]))[k] =
          trimPrefixS m.Order[k] [sl] := List.getElem_map _
      have hgl : (m.Order.map (trimPrefixS · [sl]))[l] =
          trimPrefixS m.Order[l] [sl] := List.getElem_map _
      have hlk := lookupOrder_get m.Order hondup k hkO
      have hll := lookupOrder_get m.Order hondup l hlO
      rw [← hgk] at hlk
      rw [← hgl] at hll
      rw [dirCmp_some_some hlk hll]
      omega
    · refine List.Pairwise.imp_of_mem ?_
        (@List.sorted_mergeSort Str (fun a b => decide (cmpStr a b ≤ 0))
          cmpLeB_trans cmpLeB_total (dirs.filter fun d => lookupOrder m.Order d = none))
      intro a b ha hb hab
      have hla : lookupOrder m.Order a = none :=
        of_decide_eq_true (List.mem_filter.mp (List.mem_mergeSort.mp ha)).2
      have hlb : lookupOrder m.Order b = none :=
        of_decide_eq_true (List.mem_filter.mp (List.mem_mergeSort.mp hb)).2
      rw [dirCmp_none_none hla hlb]
      exact of_decide_eq_true hab
    · intro a ha b hb
      have h1 : a ∈ m.Order.map (trimPrefixS · [sl]) :=
        (List.mem_filter.mp ha).1
      rcases hla : lookupOrder m.Order a with _ | i
      · exact absurd h1 ((lookupOrder_none_iff _ _).mp hla)
      · have hlb : lookupOrder m.Order b = none :=
          of_decide_eq_true (List.mem_filter.mp (List.mem_mergeSort.mp hb)).2
        rw [dirCmp_some_none hla hlb]
        decide
  exact @List.eq_of_perm_of_sorted Str (fun a b => dirCmp m.Order a b ≤ 0)
    ⟨fun a b h1 h2 => dirCmp_antisymm m.Order h1 h2⟩ _ _ hperm hsorted_lhs hsorted_rhs

/-- C7 witness: the theorem applied to `Order = ["gamma", "alpha"]` and
directories `[".", "alpha", "beta", "gamma"]`. -/
theorem C7_witness :
    ([str "gamma", str "alpha"] : List Str) ≠ [] ∧
    ([str ".", str "alpha", str "beta", str "gamma"] : List Str).Nodup ∧
    sortDirs ⟨[str "gamma", str "alpha"], [], []⟩
        [str ".", str "alpha", str "beta", str "gamma"] =
      (([str "gamma", str "alpha"].map (trimPrefixS · [sl])).filter
          (· ∈ [str ".", str "alpha", str "beta", str "gamma"])) ++
        (([str ".", str "alpha", str "beta", str "gamma"].filter
            fun d => lookupOrder [str "gamma", str "alpha"] d = none).mergeSort
          (fun a b => cmpStr a b ≤ 0)) :=
  ⟨by decide, by decide,
    (C7_priority_order ⟨[str "gamma", str "alpha"], [], []⟩
      [str ".", str "alpha", str "beta", str "gamma"]
      (by decide) (by decide) (by decide)).1⟩

end Muz
